import Mathlib

set_option maxHeartbeats 1000000
set_option linter.unusedVariables false

/- Shallow embedding of the Group11TSP repository: distance model (tsp_utils.py),
   exhaustive solver (tsp_brute_force.py), MST 2-approximation solver (tsp_approx.py)
   and genetic solver (tsp_genetic.py). Coordinates are integer 2D points, the
   wall clock is an explicit oracle, and the process-wide random source is an
   explicitly threaded generator over an arbitrary entropy stream. The Python
   float costs, which are integer-valued, are embedded as naturals; a rational
   mirror of the float accumulation is given separately for the claims about
   integrality. -/

/-- Labeled 2D point, as in the parsed coordinate dictionaries. -/
abbrev Point := ℤ × ℤ

/-- Squared Euclidean distance between two points, as a natural number. -/
def sqDist (c1 c2 : Point) : ℕ := ((c2.1 - c1.1) ^ 2 + (c2.2 - c1.2) ^ 2).toNat

/-- Digit recursion for the integer square root, structural in an explicit
    fuel so that it evaluates on literals; one fuel unit is spent per factor
    of 4, so fuel m always suffices. Proved equal to Nat.sqrt below. -/
def sqrtGo (m : ℕ) : ℕ → ℕ
  | 0 => 0
  | f + 1 =>
    if m < 2 then m
    else
      let s := sqrtGo (m / 4) f
      if (2 * s + 1) * (2 * s + 1) ≤ m then 2 * s + 1 else 2 * s

/-- Integer square root: the largest k with k * k ≤ m. -/
def intSqrt (m : ℕ) : ℕ := sqrtGo m m

/-- Embedding of euclidean_distance (tsp_utils.py): round(math.sqrt((x2-x1)**2 + (y2-y1)**2)).
    For an integer squared distance m the nearest integer to sqrt m is
    (intSqrt (4*m) + 1) / 2, with no rounding ties since sqrt m is never
    half-integral; the equality with round (Real.sqrt m) is proved below. -/
def euclidean_distance (c1 c2 : Point) : ℕ := (intSqrt (4 * sqDist c1 c2) + 1) / 2

/-- Coordinate Map: the dictionary vertex id -> (x, y). keys lists the dictionary
    keys (distinct, stated as Nodup hypotheses), pos is the lookup. -/
structure CoordMap where
  keys : List ℕ
  pos : ℕ → Point

/-- Embedding of sorted(coordinates.keys()). -/
def sortedKeys (m : CoordMap) : List ℕ := List.insertionSort (· ≤ ·) m.keys

/-- Embedding of calculate_tour_distance (tsp_utils.py): sum of the rounded
    distances of consecutive cities plus the closing edge, 0 for short tours. -/
def calculate_tour_distance (tour : List ℕ) (coords : ℕ → Point) : ℕ :=
  if tour.length < 2 then 0
  else
    (List.range (tour.length - 1)).foldl
      (fun acc i => acc + euclidean_distance (coords (tour.getD i 0)) (coords (tour.getD (i + 1) 0))) 0
    + euclidean_distance (coords (tour.getD (tour.length - 1) 0)) (coords (tour.getD 0 0))

/-- Mirror of the floating point accumulation in calculate_tour_distance: the
    Python total starts at 0.0 and adds the integer-valued per-edge distances,
    so the embedding adds them as rationals. -/
def calculate_tour_distance_q (tour : List ℕ) (coords : ℕ → Point) : ℚ :=
  if tour.length < 2 then 0
  else
    (List.range (tour.length - 1)).foldl
      (fun acc i =>
        acc + (euclidean_distance (coords (tour.getD i 0)) (coords (tour.getD (i + 1) 0)) : ℚ)) 0
    + (euclidean_distance (coords (tour.getD (tour.length - 1) 0)) (coords (tour.getD 0 0)) : ℚ)

/-- Lexicographic enumeration of the permutations of a list, as produced by
    itertools.permutations on a sorted list of distinct vertices: each element
    in turn is placed first, followed by the permutations of the rest. -/
def permsLex (l : List ℕ) : List (List ℕ) :=
  if h : l = [] then [[]]
  else (l.attach.map fun y => (permsLex (l.erase y.1)).map (y.1 :: ·)).flatten
termination_by l.length
decreasing_by
  have hy := y.2
  have h1 := List.length_erase_of_mem hy
  have h2 : l.length ≠ 0 := fun hl => h (List.length_eq_zero.1 hl)
  omega

theorem mem_permsLex : ∀ (l p : List ℕ), p ∈ permsLex l ↔ p.Perm l := by
  suffices H : ∀ (n : ℕ) (l : List ℕ), l.length = n → ∀ p, p ∈ permsLex l ↔ p.Perm l from
    fun l p => H _ l rfl p
  intro n
  induction n using Nat.strong_induction_on with
  | _ n ih =>
    intro l hn p
    by_cases h : l = []
    · subst h
      rw [permsLex]
      simp
    · rw [permsLex, dif_neg h]
      simp only [List.mem_flatten, List.mem_map, List.mem_attach, true_and, Subtype.exists]
      constructor
      · rintro ⟨_, ⟨y, hy, rfl⟩, hp⟩
        simp only [List.mem_map] at hp
        obtain ⟨q, hq, rfl⟩ := hp
        have hlen : (l.erase y).length < n := by
          have h2 : l.length ≠ 0 := fun hl => h (List.length_eq_zero.1 hl)
          rw [List.length_erase_of_mem hy]; omega
        have := (ih _ hlen (l.erase y) rfl q).1 hq
        exact (this.cons y).trans (List.perm_cons_erase hy).symm
      · intro hp
        match p with
        | [] =>
          exact absurd (hp.symm.eq_nil) h
        | y :: q =>
          have hy : y ∈ l := hp.subset (List.mem_cons_self y q)
          have hq : q.Perm (l.erase y) :=
            (List.cons_perm_iff_perm_erase.1 hp).2
          have hlen : (l.erase y).length < n := by
            have h2 : l.length ≠ 0 := fun hl => h (List.length_eq_zero.1 hl)
            rw [List.length_erase_of_mem hy]; omega
          refine ⟨_, ⟨y, hy, rfl⟩, ?_⟩
          simp only [List.mem_map]
          exact ⟨q, (ih _ hlen (l.erase y) rfl q).2 hq, rfl⟩

namespace BruteForce

/-- Embedding of the enumeration loop of solve_tsp (tsp_brute_force.py). checked
    counts candidates; the elapsed-time test, sampled when checked is 1 or a
    multiple of 10000, is the oracle timeOut applied to the candidate count, and
    a positive answer breaks out of the loop. best is None until a first full
    tour has been evaluated, standing for best_distance = infinity. -/
def loop (coords : ℕ → Point) (timeOut : ℕ → Bool) (start : ℕ) :
    List (List ℕ) → ℕ → Option (List ℕ × ℕ) → Option (List ℕ × ℕ)
  | [], _, best => best
  | perm :: rest, checked, best =>
    let c := checked + 1
    if (c = 1 ∨ c % 10000 = 0) ∧ timeOut c then best
    else
      let tour := start :: perm
      let distance := calculate_tour_distance tour coords
      let best' :=
        match best with
        | none => (tour, distance)
        | some (bt, bd) => if distance < bd then (tour, distance) else (bt, bd)
      loop coords timeOut start rest c (some best')

/-- Embedding of solve_tsp (tsp_brute_force.py): sort the vertices, fix the
    first one, enumerate the permutations of the rest in lexicographic order,
    and fall back to the canonical order when nothing was evaluated. -/
def solve_tsp (m : CoordMap) (timeOut : ℕ → Bool) : List ℕ × ℕ :=
  let vertices := sortedKeys m
  if vertices.length = 0 then ([], 0)
  else if vertices.length = 1 then (vertices, 0)
  else
    let start_vertex := vertices.headD 0
    let remaining_vertices := vertices.tail
    match loop m.pos timeOut start_vertex (permsLex remaining_vertices) 0 none with
    | some (t, d) => (t, d)
    | none =>
      (start_vertex :: remaining_vertices,
       calculate_tour_distance (start_vertex :: remaining_vertices) m.pos)

/-- Anything the loop returns is either the initial best or a freshly evaluated
    candidate tour paired with its recomputed cost. -/
theorem loop_good (coords : ℕ → Point) (timeOut : ℕ → Bool) (start : ℕ)
    (P : List ℕ → Prop) :
    ∀ (L : List (List ℕ)) (checked : ℕ) (best : Option (List ℕ × ℕ)),
    (∀ p ∈ L, P (start :: p)) →
    (∀ t d, best = some (t, d) → P t ∧ d = calculate_tour_distance t coords) →
    ∀ t d, loop coords timeOut start L checked best = some (t, d) →
      P t ∧ d = calculate_tour_distance t coords := by
  intro L
  induction L with
  | nil => intro checked best hL hbest t d h; exact hbest t d h
  | cons perm rest ih =>
    intro checked best hL hbest t d h
    rw [loop] at h
    dsimp only at h
    by_cases hc : ((checked + 1 = 1 ∨ (checked + 1) % 10000 = 0) ∧ timeOut (checked + 1))
    · rw [if_pos hc] at h
      exact hbest t d h
    · rw [if_neg hc] at h
      have htail : ∀ p ∈ rest, P (start :: p) := fun p hp => hL p (List.mem_cons_of_mem _ hp)
      have hhead : P (start :: perm) := hL perm (List.mem_cons_self perm rest)
      rcases best with _ | ⟨bt, bd⟩
      · refine ih (checked + 1) _ htail ?_ t d h
        intro t' d' h'
        injection h' with h''
        cases h''
        exact ⟨hhead, rfl⟩
      · refine ih (checked + 1) _ htail ?_ t d h
        intro t' d' h'
        injection h' with h''
        dsimp only at h''
        by_cases hlt : calculate_tour_distance (start :: perm) coords < bd
        · rw [if_pos hlt] at h''
          cases h''
          exact ⟨hhead, rfl⟩
        · rw [if_neg hlt] at h''
          cases h''
          exact hbest bt bd rfl

end BruteForce

/-- Helper: a foldl that keeps adding function values is the initial value plus
    the sum of the mapped list. -/
theorem foldl_add_map {M : Type} [AddCommMonoid M] (f : ℕ → M) :
    ∀ (l : List ℕ) (init : M),
    l.foldl (fun acc i => acc + f i) init = init + (l.map f).sum := by
  intro l
  induction l with
  | nil => simp
  | cons x xs ih => intro init; simp [ih, add_assoc]

/-- Cyclic edge-sum form of the tour distance: city i is paired with city
    i + 1 mod n by zipping the tour with its own rotation by one. -/
def cyclicSum (tour : List ℕ) (coords : ℕ → Point) : ℕ :=
  (List.zipWith (fun a b => euclidean_distance (coords a) (coords b)) tour (tour.rotate 1)).sum

theorem euclidean_distance_self (c : Point) : euclidean_distance c c = 0 := by
  have h0 : sqDist c c = 0 := by simp [sqDist]
  rw [euclidean_distance, h0]
  rfl

theorem calc_eq_cyclicSum (tour : List ℕ) (coords : ℕ → Point) :
    calculate_tour_distance tour coords = cyclicSum tour coords := by
  match tour with
  | [] => simp [calculate_tour_distance, cyclicSum]
  | [x] => simp [calculate_tour_distance, cyclicSum, euclidean_distance_self]
  | a :: b :: rest =>
    set t := a :: b :: rest with ht
    have hn : 2 ≤ t.length := by simp [ht]
    have hpos : 0 < t.length := by omega
    rw [calculate_tour_distance, if_neg (by omega), cyclicSum]
    have hzip : List.zipWith (fun a b => euclidean_distance (coords a) (coords b)) t
        (t.rotate 1) =
        (List.range t.length).map
          (fun i => euclidean_distance (coords (t.getD i 0))
            (coords (t.getD ((i + 1) % t.length) 0))) := by
      apply List.ext_getElem
      · simp
      · intro i h1 h2
        have hi : i < t.length := by simpa using h1
        have hrot : i < (t.rotate 1).length := by simpa using hi
        rw [List.getElem_zipWith, List.getElem_map, List.getElem_range,
          List.getElem_rotate]
        rw [List.getD_eq_getElem t 0 hi,
          List.getD_eq_getElem t 0 (Nat.mod_lt _ hpos)]
    rw [hzip]
    have hsplit : t.length = (t.length - 1) + 1 := by omega
    have hr : List.range t.length = List.range (t.length - 1) ++ [t.length - 1] := by
      conv_lhs => rw [hsplit]
      rw [List.range_succ]
    rw [hr, List.map_append, List.sum_append]
    have h1 : (List.range (t.length - 1)).map
        (fun i => euclidean_distance (coords (t.getD i 0))
          (coords (t.getD ((i + 1) % t.length) 0))) =
        (List.range (t.length - 1)).map
          (fun i => euclidean_distance (coords (t.getD i 0))
            (coords (t.getD (i + 1) 0))) := by
      apply List.map_congr_left
      intro i hi
      have : i < t.length - 1 := by simpa using hi
      rw [Nat.mod_eq_of_lt (by omega)]
    have h2 : ((t.length - 1) + 1) % t.length = 0 := by
      rw [← hsplit, Nat.mod_self]
    rw [h1, foldl_add_map
      (fun i => euclidean_distance (coords (t.getD i 0)) (coords (t.getD (i + 1) 0)))
      (List.range (t.length - 1)) 0]
    simp [h2]

theorem cyclicSum_rotate (tour : List ℕ) (coords : ℕ → Point) (k : ℕ) :
    cyclicSum (tour.rotate k) coords = cyclicSum tour coords := by
  unfold cyclicSum
  have h1 : (tour.rotate k).rotate 1 = (tour.rotate 1).rotate k := by
    rw [List.rotate_rotate, List.rotate_rotate, Nat.add_comm]
  rw [h1, ← List.zipWith_rotate_distrib
    (fun a b => euclidean_distance (coords a) (coords b)) tour (tour.rotate 1) k (by simp)]
  exact (List.rotate_perm _ k).sum_eq

theorem calc_rotate (tour : List ℕ) (coords : ℕ → Point) (k : ℕ) :
    calculate_tour_distance (tour.rotate k) coords = calculate_tour_distance tour coords := by
  rw [calc_eq_cyclicSum, calc_eq_cyclicSum, cyclicSum_rotate]

/-- Mirror equality: the rational (float) accumulation equals the natural
    number tour distance cast to the rationals. -/
theorem calc_q_eq (tour : List ℕ) (coords : ℕ → Point) :
    calculate_tour_distance_q tour coords = (calculate_tour_distance tour coords : ℚ) := by
  unfold calculate_tour_distance_q calculate_tour_distance
  by_cases h : tour.length < 2
  · simp [h]
  · rw [if_neg h, if_neg h]
    rw [foldl_add_map, foldl_add_map]
    push_cast
    simp only [List.map_map]
    rfl

namespace BruteForce

/-- With a clock that never fires, starting from a recorded best the loop
    returns a best whose cost is at most the recorded one. -/
theorem loop_le (coords : ℕ → Point) (start : ℕ) :
    ∀ (L : List (List ℕ)) (checked : ℕ) (bt : List ℕ) (bd : ℕ),
    ∃ t d, loop coords (fun _ => false) start L checked (some (bt, bd)) = some (t, d) ∧
      d ≤ bd := by
  intro L
  induction L with
  | nil => intro checked bt bd; exact ⟨bt, bd, rfl, le_refl _⟩
  | cons perm rest ih =>
    intro checked bt bd
    rw [loop]
    dsimp only
    rw [if_neg (by simp)]
    by_cases hlt : calculate_tour_distance (start :: perm) coords < bd
    · rw [if_pos hlt]
      obtain ⟨t, d, heq, hle⟩ := ih (checked + 1) (start :: perm)
        (calculate_tour_distance (start :: perm) coords)
      exact ⟨t, d, heq, hle.trans hlt.le⟩
    · rw [if_neg hlt]
      exact ih (checked + 1) bt bd

/-- With a clock that never fires the returned cost is at most the cost of
    every enumerated candidate tour. -/
theorem loop_le_mem (coords : ℕ → Point) (start : ℕ) :
    ∀ (L : List (List ℕ)) (checked : ℕ) (best : Option (List ℕ × ℕ)) (p : List ℕ),
    p ∈ L → ∀ t d, loop coords (fun _ => false) start L checked best = some (t, d) →
      d ≤ calculate_tour_distance (start :: p) coords := by
  intro L
  induction L with
  | nil => intro checked best p hp; exact absurd hp (List.not_mem_nil p)
  | cons perm rest ih =>
    intro checked best p hp t d h
    rw [loop] at h
    dsimp only at h
    rw [if_neg (by simp)] at h
    rcases List.mem_cons.1 hp with rfl | hp
    · -- the head candidate is evaluated right now; afterwards the recorded best
      -- cost never exceeds it
      rcases best with _ | ⟨bt, bd⟩
      · obtain ⟨t', d', heq, hle⟩ := loop_le coords start rest (checked + 1) (start :: p)
          (calculate_tour_distance (start :: p) coords)
        rw [heq] at h
        injection h with h'
        cases h'
        exact hle
      · dsimp only at h
        by_cases hlt : calculate_tour_distance (start :: p) coords < bd
        · rw [if_pos hlt] at h
          obtain ⟨t', d', heq, hle⟩ := loop_le coords start rest (checked + 1) (start :: p)
            (calculate_tour_distance (start :: p) coords)
          rw [heq] at h
          injection h with h'
          cases h'
          exact hle
        · rw [if_neg hlt] at h
          obtain ⟨t', d', heq, hle⟩ := loop_le coords start rest (checked + 1) bt bd
          rw [heq] at h
          injection h with h'
          cases h'
          exact hle.trans (le_of_not_lt hlt)
    · exact ih (checked + 1) _ p hp t d h

/-- With a clock that never fires and a nonempty enumeration the loop always
    produces a result. -/
theorem loop_isSome (coords : ℕ → Point) (start : ℕ) (perm : List ℕ)
    (rest : List (List ℕ)) (checked : ℕ) :
    ∃ t d, loop coords (fun _ => false) start (perm :: rest) checked none = some (t, d) := by
  rw [loop]
  dsimp only
  rw [if_neg (by simp)]
  obtain ⟨t, d, heq, _⟩ := loop_le coords start rest (checked + 1) (start :: perm)
    (calculate_tour_distance (start :: perm) coords)
  exact ⟨t, d, heq⟩

end BruteForce

/-- The digit recursion computes Nat.sqrt when given enough fuel. -/
theorem sqrtGo_eq : ∀ (f m : ℕ), m < 4 ^ f → sqrtGo m f = Nat.sqrt m := by
  intro f
  induction f with
  | zero =>
    intro m hm
    interval_cases m
    rfl
  | succ f ih =>
    intro m hm
    rw [sqrtGo]
    by_cases h2 : m < 2
    · rw [if_pos h2]
      interval_cases m
      · rfl
      · rfl
    · rw [if_neg h2]
      have hm4 : m / 4 < 4 ^ f := by
        rw [Nat.div_lt_iff_lt_mul (by norm_num)]
        calc m < 4 ^ (f + 1) := hm
        _ = 4 ^ f * 4 := pow_succ 4 f
      have hs := ih (m / 4) hm4
      rw [hs]
      have hs1 : Nat.sqrt (m / 4) * Nat.sqrt (m / 4) ≤ m / 4 := Nat.sqrt_le (m / 4)
      have hs2 : m / 4 < (Nat.sqrt (m / 4) + 1) * (Nat.sqrt (m / 4) + 1) :=
        Nat.lt_succ_sqrt (m / 4)
      have h4s : 4 * (Nat.sqrt (m / 4) * Nat.sqrt (m / 4)) ≤ m := by
        calc 4 * (Nat.sqrt (m / 4) * Nat.sqrt (m / 4)) ≤ 4 * (m / 4) :=
          Nat.mul_le_mul_left 4 hs1
        _ ≤ m := Nat.mul_div_le m 4
      have hub : m < 4 * ((Nat.sqrt (m / 4) + 1) * (Nat.sqrt (m / 4) + 1)) := by
        rw [Nat.div_lt_iff_lt_mul (by norm_num)] at hs2
        omega
      by_cases hc : (2 * Nat.sqrt (m / 4) + 1) * (2 * Nat.sqrt (m / 4) + 1) ≤ m
      · rw [if_pos hc]
        have hlow : 2 * Nat.sqrt (m / 4) + 1 ≤ Nat.sqrt m := Nat.le_sqrt.2 hc
        have hhigh : Nat.sqrt m < 2 * Nat.sqrt (m / 4) + 2 := by
          rw [Nat.sqrt_lt]
          calc m < 4 * ((Nat.sqrt (m / 4) + 1) * (Nat.sqrt (m / 4) + 1)) := hub
          _ = (2 * Nat.sqrt (m / 4) + 2) * (2 * Nat.sqrt (m / 4) + 2) := by ring
        omega
      · rw [if_neg hc]
        have hlow : 2 * Nat.sqrt (m / 4) ≤ Nat.sqrt m := by
          rw [Nat.le_sqrt]
          calc 2 * Nat.sqrt (m / 4) * (2 * Nat.sqrt (m / 4))
              = 4 * (Nat.sqrt (m / 4) * Nat.sqrt (m / 4)) := by ring
          _ ≤ m := h4s
        have hhigh : Nat.sqrt m < 2 * Nat.sqrt (m / 4) + 1 := by
          rw [Nat.sqrt_lt]
          omega
        omega

/-- The structural integer square root agrees with Nat.sqrt. -/
theorem intSqrt_eq (m : ℕ) : intSqrt m = Nat.sqrt m :=
  sqrtGo_eq m m (Nat.lt_pow_self (by norm_num) m)

/-- The computable integer form of the rounded square root used by the
    embedding agrees with rounding the real square root: for any natural m,
    (Nat.sqrt (4*m) + 1) / 2 is the integer nearest to sqrt m. -/
theorem round_sqrt_nat (m : ℕ) :
    (((Nat.sqrt (4 * m) + 1) / 2 : ℕ) : ℤ) = round (Real.sqrt (m : ℝ)) := by
  have h0 : (0 : ℝ) ≤ Real.sqrt (m : ℝ) := Real.sqrt_nonneg _
  have hhalf : (0 : ℝ) ≤ Real.sqrt (m : ℝ) + 1 / 2 := by linarith
  rw [round_eq, ← Int.natCast_floor_eq_floor hhalf]
  congr 1
  have h4 : Real.sqrt (((4 * m : ℕ) : ℝ)) = 2 * Real.sqrt (m : ℝ) := by
    push_cast
    rw [show (4 : ℝ) * (m : ℝ) = 2 ^ 2 * (m : ℝ) by ring,
      Real.sqrt_mul (by positivity), Real.sqrt_sq (by norm_num)]
  have heq : Real.sqrt (m : ℝ) + 1 / 2 = (Real.sqrt (((4 * m : ℕ) : ℝ)) + 1) / 2 := by
    rw [h4]; ring
  rw [heq, show ((2 : ℝ)) = ((2 : ℕ) : ℝ) by norm_num, Nat.floor_div_nat,
    Nat.floor_add_one (Real.sqrt_nonneg _), Real.nat_floor_real_sqrt_eq_nat_sqrt]

/-- The embedded distance is the rounded Euclidean distance of the source:
    round of the real square root of the squared coordinate differences. -/
theorem euclid_eq_round_sqrt (c1 c2 : Point) :
    ((euclidean_distance c1 c2 : ℕ) : ℤ) =
      round (Real.sqrt (((c2.1 - c1.1) ^ 2 + (c2.2 - c1.2) ^ 2 : ℤ) : ℝ)) := by
  have hnn : (0 : ℤ) ≤ (c2.1 - c1.1) ^ 2 + (c2.2 - c1.2) ^ 2 := by positivity
  have hcast : (((c2.1 - c1.1) ^ 2 + (c2.2 - c1.2) ^ 2 : ℤ) : ℝ) = ((sqDist c1 c2 : ℕ) : ℝ) := by
    rw [sqDist]
    rw [show ((((c2.1 - c1.1) ^ 2 + (c2.2 - c1.2) ^ 2).toNat : ℕ) : ℝ) =
      ((((c2.1 - c1.1) ^ 2 + (c2.2 - c1.2) ^ 2).toNat : ℤ) : ℝ) by push_cast; ring]
    rw [Int.toNat_of_nonneg hnn]
  rw [hcast, euclidean_distance, intSqrt_eq, round_sqrt_nat]

/-- State of the process-wide pseudo random generator: an arbitrary entropy
    stream together with a position in it. Each draw consumes one value. -/
structure RNG where
  stream : ℕ → ℕ
  pos : ℕ

/-- One raw draw from the generator. -/
def RNG.next (g : RNG) : ℕ × RNG := (g.stream g.pos, ⟨g.stream, g.pos + 1⟩)

/-- Embedding of random.seed(seed): the generator state is replaced by the
    entropy stream determined by the seed, at position 0. -/
def seedRNG (entropy : ℕ → ℕ → ℕ) (seed : ℕ) : RNG := ⟨entropy seed, 0⟩

/-- Embedding of random.random(): a rational in [0, 1) with 53 random bits,
    the precision of the Python float draw. -/
def RNG.random (g : RNG) : ℚ × RNG :=
  let rg := g.next
  (((rg.1 % 2 ^ 53 : ℕ) : ℚ) / (2 ^ 53 : ℚ), rg.2)

/-- Embedding of random.randint(a, b): a uniform draw from the closed
    interval [a, b]. -/
def RNG.randint (g : RNG) (a b : ℕ) : ℕ × RNG :=
  let rg := g.next
  (a + rg.1 % (b + 1 - a), rg.2)

/-- Embedding of random.sample(range(n), 2): two distinct indices below n
    (for n at least 2), the only property the solver relies on. -/
def RNG.sampleTwo (g : RNG) (n : ℕ) : (ℕ × ℕ) × RNG :=
  let r1g := g.next
  let r2g := r1g.2.next
  let i := r1g.1 % n
  let j0 := r2g.1 % (n - 1)
  ((i, if i ≤ j0 then j0 + 1 else j0), r2g.2)

/-- Swap of two positions of a list, reading both original values first, as
    the Python tuple assignment does. -/
def listSwap (l : List ℕ) (i j : ℕ) : List ℕ :=
  (l.set i (l.getD j 0)).set j (l.getD i 0)

/-- Embedding of random.shuffle: Fisher-Yates, swapping position i with a
    random position at most i, for i from the end of the list down to 1. -/
def fisherYates (l : List ℕ) (g : RNG) : ℕ → List ℕ × RNG
  | 0 => (l, g)
  | i + 1 =>
    let rg := g.next
    let j := rg.1 % (i + 2)
    fisherYates (listSwap l (i + 1) j) rg.2 i

/-- Embedding of random.shuffle applied to a fresh copy of a list. -/
def RNG.shuffle (g : RNG) (l : List ℕ) : List ℕ × RNG :=
  fisherYates l g (l.length - 1)

@[simp]
theorem listSwap_length (l : List ℕ) (i j : ℕ) : (listSwap l i j).length = l.length := by
  simp [listSwap]

/-- Helper for the swap permutation: putting the j-th element in front while
    writing x at position j permutes x consed on the list. -/
theorem getD_cons_set_perm : ∀ (xs : List ℕ) (j : ℕ) (x : ℕ), j < xs.length →
    (xs.getD j 0 :: xs.set j x).Perm (x :: xs) := by
  intro xs
  induction xs with
  | nil => intro j x h; simp at h
  | cons y ys ih =>
    intro j x h
    match j with
    | 0 => simpa using List.Perm.swap x y ys
    | j + 1 =>
      have hj : j < ys.length := by simpa using h
      have h1 : (ys.getD j 0 :: y :: ys.set j x).Perm (y :: ys.getD j 0 :: ys.set j x) :=
        List.Perm.swap _ _ _
      have h2 : (y :: ys.getD j 0 :: ys.set j x).Perm (y :: x :: ys) :=
        (ih j x hj).cons y
      have h3 : (y :: x :: ys).Perm (x :: y :: ys) := List.Perm.swap _ _ _
      simpa using h1.trans (h2.trans h3)

/-- Swapping two in-range positions of a list permutes it. -/
theorem listSwap_perm : ∀ (l : List ℕ) (i j : ℕ), i < l.length → j < l.length →
    (listSwap l i j).Perm l := by
  intro l
  induction l with
  | nil => intro i j hi; simp at hi
  | cons x xs ih =>
    intro i j hi hj
    match i, j with
    | 0, 0 => simp [listSwap]
    | 0, k + 1 =>
      have hk : k < xs.length := by simpa using hj
      have : listSwap (x :: xs) 0 (k + 1) = xs.getD k 0 :: xs.set k x := by
        simp [listSwap]
      rw [this]
      exact getD_cons_set_perm xs k x hk
    | k + 1, 0 =>
      have hk : k < xs.length := by simpa using hi
      have : listSwap (x :: xs) (k + 1) 0 = xs.getD k 0 :: xs.set k x := by
        simp [listSwap]
      rw [this]
      exact getD_cons_set_perm xs k x hk
    | k + 1, m + 1 =>
      have hk : k < xs.length := by simpa using hi
      have hm : m < xs.length := by simpa using hj
      have : listSwap (x :: xs) (k + 1) (m + 1) = x :: listSwap xs k m := by
        simp [listSwap]
      rw [this]
      exact (ih k m hk hm).cons x

/-- Fisher-Yates shuffling permutes the list. -/
theorem fisherYates_perm : ∀ (i : ℕ) (l : List ℕ) (g : RNG), i < l.length →
    (fisherYates l g i).1.Perm l := by
  intro i
  induction i with
  | zero => intro l g h; rfl
  | succ i ih =>
    intro l g h
    rw [fisherYates]
    have hj : (g.next.1) % (i + 2) < l.length := by
      have := Nat.mod_lt (g.next.1) (show 0 < i + 2 by omega)
      omega
    have hswap := listSwap_perm l (i + 1) ((g.next.1) % (i + 2)) h hj
    have hlen : i < (listSwap l (i + 1) ((g.next.1) % (i + 2))).length := by
      simp; omega
    exact (ih _ g.next.2 hlen).trans hswap

/-- Shuffling permutes the list. -/
theorem shuffle_perm (g : RNG) (l : List ℕ) : (g.shuffle l).1.Perm l := by
  unfold RNG.shuffle
  match hl : l with
  | [] => rfl
  | x :: xs =>
    apply fisherYates_perm
    simp

namespace Genetic

/-- Net effect of the circular while-scan in crossover (tsp_genetic.py): the
    first offset o such that parent2[(idx + o) % n] has not been used yet. The
    fallback value n is never reached while the child has an empty slot. -/
def scanOffset (p2 used : List ℕ) (idx : ℕ) : ℕ :=
  ((List.range p2.length).find?
    (fun o => decide (p2.getD ((idx + o) % p2.length) 0 ∉ used))).getD p2.length

/-- The fill phase of crossover: walk the child positions in order, placing at
    each empty slot the next not-yet-used city of parent2, scanning parent2
    circularly from the position after the last one used. -/
def fillLoop (p2 : List ℕ) : List ℕ → List (Option ℕ) × List ℕ × ℕ → List (Option ℕ) × List ℕ × ℕ
  | [], st => st
  | i :: is, (child, used, idx) =>
    if (child.getD i none).isSome then fillLoop p2 is (child, used, idx)
    else
      let n := p2.length
      let o := scanOffset p2 used idx
      let idx1 := (idx + o) % n
      let c := p2.getD idx1 0
      fillLoop p2 is (child.set i (some c), c :: used, (idx1 + 1) % n)

/-- Deterministic core of crossover (tsp_genetic.py) for a drawn segment start
    and length: the child starts as parent1 restricted to positions
    [start, min (start+length) n) with every other position empty and those
    cities marked used, then the empty positions are filled from parent2. -/
def crossoverAt (p1 p2 : List ℕ) (start len : ℕ) : List ℕ :=
  let n := p1.length
  let e := min (start + len) n
  let child0 : List (Option ℕ) :=
    (List.range n).map (fun i => if start ≤ i ∧ i < e then some (p1.getD i 0) else none)
  let used0 : List ℕ :=
    (List.range n).filterMap (fun i => if start ≤ i ∧ i < e then some (p1.getD i 0) else none)
  let res := fillLoop p2 (List.range n) (child0, used0, 0)
  res.1.map (fun o => o.getD 0)

/-- Embedding of crossover (tsp_genetic.py) including its two random draws. -/
def crossover (parent1 parent2 : List ℕ) (g : RNG) : List ℕ × RNG :=
  let n := parent1.length
  let sg := g.randint 0 (n - 1)
  let lg := sg.2.randint 1 (n / 2)
  (crossoverAt parent1 parent2 sg.1 lg.1, lg.2)

/-- Helper: a list of options with an empty slot has strictly fewer somes than
    elements. -/
theorem filterMap_length_lt_of_none :
    ∀ (l : List (Option ℕ)) (i : ℕ), i < l.length → l.getD i none = none →
    (l.filterMap id).length < l.length := by
  intro l
  induction l with
  | nil => intro i h; simp at h
  | cons x tl ih =>
    intro i hi hnone
    match i, x with
    | 0, x =>
      simp only [List.getD_cons_zero] at hnone
      subst hnone
      have he : List.filterMap id (none :: tl) = List.filterMap id tl := rfl
      rw [he, List.length_cons]
      exact Nat.lt_succ_of_le (List.length_filterMap_le _ _)
    | i + 1, none =>
      have := ih i (by simpa using hi) (by simpa using hnone)
      have he : List.filterMap id (none :: tl) = List.filterMap id tl := rfl
      rw [he, List.length_cons]
      omega
    | i + 1, some a =>
      have := ih i (by simpa using hi) (by simpa using hnone)
      have he : List.filterMap id (some a :: tl) = a :: List.filterMap id tl := rfl
      rw [he, List.length_cons, List.length_cons]
      omega

/-- Helper: writing a value into an empty slot adds exactly that value to the
    collected somes, up to permutation. -/
theorem filterMap_set_none :
    ∀ (l : List (Option ℕ)) (i : ℕ), i < l.length → l.getD i none = none → ∀ (c : ℕ),
    ((l.set i (some c)).filterMap id).Perm (c :: l.filterMap id) := by
  intro l
  induction l with
  | nil => intro i h; simp at h
  | cons x tl ih =>
    intro i hi hnone c
    match i, x with
    | 0, x =>
      simp only [List.getD_cons_zero] at hnone
      subst hnone
      simp [List.set_cons_zero]
    | i + 1, none =>
      have he : ∀ t : List (Option ℕ), List.filterMap id (none :: t) = List.filterMap id t :=
        fun t => rfl
      simp only [List.set_cons_succ, he]
      exact ih i (by simpa using hi) (by simpa using hnone) c
    | i + 1, some a =>
      have he : ∀ t : List (Option ℕ), List.filterMap id (some a :: t) = a :: List.filterMap id t :=
        fun t => rfl
      simp only [List.set_cons_succ, he]
      have h1 := (ih i (by simpa using hi) (by simpa using hnone) c).cons a
      have h2 : (a :: c :: tl.filterMap id).Perm (c :: a :: tl.filterMap id) :=
        List.Perm.swap _ _ _
      exact h1.trans h2

/-- Helper: a duplicate-free subset of a strictly longer duplicate-free list
    misses some element. -/
theorem exists_mem_not_mem (base used : List ℕ) (hb : base.Nodup) (hu : used ⊆ base)
    (hnu : used.Nodup) (hlen : used.length < base.length) : ∃ c ∈ base, c ∉ used := by
  by_contra hcon
  push_neg at hcon
  have hsub : base ⊆ used := fun c hc => hcon c hc
  have := (List.subperm_of_subset hb hsub).length_le
  omega

/-- Helper: when every entry is a some, reading with a default collects the
    same list as filtering the somes. -/
theorem map_getD_eq_filterMap :
    ∀ (l : List (Option ℕ)), (∀ o ∈ l, o.isSome) →
    l.map (fun o => o.getD 0) = l.filterMap id := by
  intro l
  induction l with
  | nil => intro; rfl
  | cons x tl ih =>
    intro h
    match x, h x (List.mem_cons_self x tl) with
    | some a, _ =>
      have he : List.filterMap id (some a :: tl) = a :: List.filterMap id tl := rfl
      simp only [List.map_cons, he]
      rw [ih (fun o ho => h o (List.mem_cons_of_mem _ ho))]
      rfl

end Genetic

namespace Genetic

/-- Helper: writing a some into a list keeps every filled slot filled. -/
theorem getD_set_isSome (l : List (Option ℕ)) (i j : ℕ) (c : ℕ) :
    (l.getD j none).isSome → ((l.set i (some c)).getD j none).isSome := by
  intro h
  rw [List.getD_eq_getElem?_getD] at h ⊢
  rw [List.getElem?_set]
  by_cases hij : i = j
  · subst hij
    by_cases hil : i < l.length
    · simp [hil]
    · rw [List.getElem?_eq_none (by omega)] at h
      simp at h
  · simp [hij]
    exact h

/-- Helper: writing a some into a list in range fills that slot. -/
theorem getD_set_self_isSome (l : List (Option ℕ)) (i : ℕ) (hi : i < l.length) (c : ℕ) :
    ((l.set i (some c)).getD i none).isSome := by
  rw [List.getD_eq_getElem?_getD, List.getElem?_set_self (by simpa using hi)]
  rfl

/-- Invariant preservation and completion of the fill phase: the filled child
    keeps collecting exactly the used cities, the used list stays a
    duplicate-free subset of the base vertex set, filled slots stay filled,
    and every processed in-range position ends up filled. -/
theorem fillLoop_spec (base p2 : List ℕ) (hb : base.Nodup) (h2 : p2.Perm base) :
    ∀ (is : List ℕ) (child : List (Option ℕ)) (used : List ℕ) (idx : ℕ),
    (∀ i ∈ is, i < base.length) →
    child.length = base.length →
    (child.filterMap id).Perm used →
    used.Nodup → used ⊆ base →
    ((fillLoop p2 is (child, used, idx)).1.length = base.length ∧
     ((fillLoop p2 is (child, used, idx)).1.filterMap id).Perm
       (fillLoop p2 is (child, used, idx)).2.1 ∧
     (fillLoop p2 is (child, used, idx)).2.1.Nodup ∧
     (fillLoop p2 is (child, used, idx)).2.1 ⊆ base ∧
     (∀ j, (child.getD j none).isSome →
       ((fillLoop p2 is (child, used, idx)).1.getD j none).isSome) ∧
     (∀ i ∈ is, ((fillLoop p2 is (child, used, idx)).1.getD i none).isSome)) := by
  intro is
  induction is with
  | nil =>
    intro child used idx hrange hlen hperm hnu hsub
    exact ⟨hlen, hperm, hnu, hsub, fun j h => h,
      fun i hi => absurd hi (List.not_mem_nil i)⟩
  | cons i is ih =>
    intro child used idx hrange hlen hperm hnu hsub
    have hn : p2.length = base.length := h2.length_eq
    have hi : i < base.length := hrange i (List.mem_cons_self i is)
    have hn0 : 0 < p2.length := by omega
    rw [fillLoop]
    by_cases hsome : (child.getD i none).isSome
    · rw [if_pos hsome]
      obtain ⟨a1, a2, a3, a4, a5, a6⟩ := ih child used idx
        (fun j hj => hrange j (List.mem_cons_of_mem _ hj)) hlen hperm hnu hsub
      refine ⟨a1, a2, a3, a4, a5, fun j hj => ?_⟩
      rcases List.mem_cons.1 hj with rfl | hj
      · exact a5 j hsome
      · exact a6 j hj
    · rw [if_neg hsome]
      have hnone : child.getD i none = none := by
        cases hch : child.getD i none with
        | none => rfl
        | some a => rw [hch] at hsome; simp at hsome
      have hfml : (child.filterMap id).length < base.length := by
        have := filterMap_length_lt_of_none child i (by omega) hnone
        omega
      have hul : used.length < base.length := by
        have := hperm.length_eq
        omega
      obtain ⟨c, hcb, hcu⟩ := exists_mem_not_mem base used hb hsub hnu hul
      have hcp : c ∈ p2 := h2.symm.subset hcb
      obtain ⟨k, hk, hpk⟩ := List.getElem_of_mem hcp
      -- there is an offset whose scan target is the unused city c
      set q := idx % p2.length with hqdef
      have hq : q < p2.length := Nat.mod_lt _ hn0
      set o0 := if q ≤ k then k - q else k + p2.length - q with ho0def
      have ho0 : o0 < p2.length := by
        rw [ho0def]
        split <;> omega
      have hsum : (idx + o0) % p2.length = k := by
        rw [Nat.add_mod, ← hqdef, Nat.mod_eq_of_lt ho0]
        rw [ho0def]
        by_cases hqk : q ≤ k
        · rw [if_pos hqk]
          have : q + (k - q) = k := by omega
          rw [this, Nat.mod_eq_of_lt hk]
        · rw [if_neg hqk]
          have : q + (k + p2.length - q) = k + p2.length := by omega
          rw [this, Nat.add_mod_right, Nat.mod_eq_of_lt hk]
      have hpred : (fun o => decide (p2.getD ((idx + o) % p2.length) 0 ∉ used)) o0 = true := by
        simp only [decide_eq_true_eq]
        rw [hsum, List.getD_eq_getElem p2 0 hk, hpk]
        exact hcu
      have hfind : (((List.range p2.length).find?
          (fun o => decide (p2.getD ((idx + o) % p2.length) 0 ∉ used)))).isSome := by
        rw [List.find?_isSome]
        exact ⟨o0, List.mem_range.2 ho0, hpred⟩
      obtain ⟨o, hfo⟩ := Option.isSome_iff_exists.1 hfind
      have hscan : scanOffset p2 used idx = o := by
        rw [scanOffset, hfo]
        rfl
      have ho : o < p2.length := List.mem_range.1 (List.mem_of_find?_eq_some hfo)
      have hpo : p2.getD ((idx + o) % p2.length) 0 ∉ used := by
        have := List.find?_some hfo
        simpa using this
      have hidx1 : (idx + o) % p2.length < p2.length := Nat.mod_lt _ hn0
      set c1 := p2.getD ((idx + o) % p2.length) 0 with hc1def
      have hc1p : c1 ∈ p2 := by
        rw [hc1def, List.getD_eq_getElem p2 0 hidx1]
        exact List.getElem_mem _
      have hc1b : c1 ∈ base := h2.subset hc1p
      have hperm1 : ((child.set i (some c1)).filterMap id).Perm (c1 :: used) :=
        (filterMap_set_none child i (by omega) hnone c1).trans (hperm.cons c1)
      have hlen1 : (child.set i (some c1)).length = base.length := by
        rw [List.length_set]; exact hlen
      have hnu1 : (c1 :: used).Nodup := List.nodup_cons.2 ⟨hpo, hnu⟩
      have hsub1 : c1 :: used ⊆ base := List.cons_subset.2 ⟨hc1b, hsub⟩
      rw [hscan]
      obtain ⟨a1, a2, a3, a4, a5, a6⟩ := ih (child.set i (some c1)) (c1 :: used)
        (((idx + o) % p2.length + 1) % p2.length)
        (fun j hj => hrange j (List.mem_cons_of_mem _ hj)) hlen1 hperm1 hnu1 hsub1
      refine ⟨a1, a2, a3, a4, ?_, ?_⟩
      · intro j hj
        exact a5 j (getD_set_isSome child i j c1 hj)
      · intro j hj
        rcases List.mem_cons.1 hj with rfl | hj
        · exact a5 j (getD_set_self_isSome child j (by omega) c1)
        · exact a6 j hj

end Genetic

namespace Genetic

/-- Helper: a filterMap that always produces a some is a map. -/
theorem filterMap_eq_map_of_some {f : ℕ → Option ℕ} {g : ℕ → ℕ} :
    ∀ (l : List ℕ), (∀ a ∈ l, f a = some (g a)) → l.filterMap f = l.map g := by
  intro l
  induction l with
  | nil => intro; rfl
  | cons x tl ih =>
    intro h
    rw [List.filterMap_cons, h x (List.mem_cons_self x tl), List.map_cons,
      ih (fun a ha => h a (List.mem_cons_of_mem _ ha))]

/-- The initially used cities of crossover are the copied segment of parent1,
    a contiguous piece of it. -/
theorem used0_eq_segment (p1 : List ℕ) (start len : ℕ) (hstart : start ≤ p1.length) :
    (List.range p1.length).filterMap
      (fun i => if start ≤ i ∧ i < min (start + len) p1.length
                then some (p1.getD i 0) else none) =
      ((p1.drop start).take (min (start + len) p1.length - start)) := by
  set n := p1.length with hn
  set e := min (start + len) n with he
  have hen : e ≤ n := min_le_right _ _
  have hse : start ≤ e := by omega
  have hdecomp : List.range n =
      List.range' 0 start ++ List.range' start (e - start) ++ List.range' e (n - e) := by
    have hA := List.range'_append_1 0 start (e - start)
    rw [Nat.zero_add, show e - start + start = e by omega] at hA
    have hB := List.range'_append_1 0 e (n - e)
    rw [Nat.zero_add, show n - e + e = n by omega] at hB
    rw [List.range_eq_range', ← hB, ← hA]
  rw [hdecomp, List.filterMap_append, List.filterMap_append]
  have hc1 : (List.range' 0 start).filterMap
      (fun i => if start ≤ i ∧ i < e then some (p1.getD i 0) else none) = [] := by
    rw [List.filterMap_eq_nil_iff]
    intro a ha
    rw [List.mem_range'_1] at ha
    rw [if_neg (by omega)]
  have hc3 : (List.range' e (n - e)).filterMap
      (fun i => if start ≤ i ∧ i < e then some (p1.getD i 0) else none) = [] := by
    rw [List.filterMap_eq_nil_iff]
    intro a ha
    rw [List.mem_range'_1] at ha
    rw [if_neg (by omega)]
  have hc2 : (List.range' start (e - start)).filterMap
      (fun i => if start ≤ i ∧ i < e then some (p1.getD i 0) else none) =
      (List.range' start (e - start)).map (fun i => p1.getD i 0) := by
    apply filterMap_eq_map_of_some
    intro a ha
    rw [List.mem_range'_1] at ha
    rw [if_pos (by omega)]
  rw [hc1, hc2, hc3, List.nil_append, List.append_nil]
  apply List.ext_getElem
  · simp only [List.length_map, List.length_range', List.length_take, List.length_drop]
    omega
  · intro j h1 h2
    have hj : j < e - start := by simpa using h1
    rw [List.getElem_map, List.getElem_range']
    rw [List.getElem_take, List.getElem_drop]
    rw [List.getD_eq_getElem p1 0 (by omega)]
    congr 1
    omega

/-- The crossover core always returns a permutation of the vertex set when the
    parents are permutations of it and the segment start is in range. -/
theorem crossoverAt_perm (base p1 p2 : List ℕ) (hb : base.Nodup)
    (h1 : p1.Perm base) (h2 : p2.Perm base) (start len : ℕ)
    (hstart : start ≤ p1.length) :
    (crossoverAt p1 p2 start len).Perm base := by
  unfold crossoverAt
  set n := p1.length with hn
  set e := min (start + len) n with he
  set f0 : ℕ → Option ℕ :=
    (fun i => if start ≤ i ∧ i < e then some (p1.getD i 0) else none) with hf0
  set child0 : List (Option ℕ) := (List.range n).map f0 with hchild0
  set used0 : List ℕ := (List.range n).filterMap f0 with hused0
  have hlenb : n = base.length := h1.length_eq
  have hfm0 : child0.filterMap id = used0 := by
    rw [hchild0, List.filterMap_map]
    rfl
  have hseg : used0 = (p1.drop start).take (e - start) :=
    used0_eq_segment p1 start len hstart
  have hsl : used0.Sublist p1 := by
    rw [hseg]
    exact ((p1.drop start).take_sublist _).trans (p1.drop_sublist start)
  have hp1nd : p1.Nodup := (h1.nodup_iff).2 hb
  have hnu0 : used0.Nodup := hp1nd.sublist hsl
  have hsub0 : used0 ⊆ base := fun c hc => h1.subset (hsl.subset hc)
  obtain ⟨a1, a2, a3, a4, a5, a6⟩ := fillLoop_spec base p2 hb h2 (List.range n)
    child0 used0 0
    (fun i hi => by rw [← hlenb]; exact List.mem_range.1 hi)
    (by rw [hchild0]; simp [hlenb])
    (by rw [hfm0])
    hnu0 hsub0
  set res := fillLoop p2 (List.range n) (child0, used0, 0) with hres
  have hallsome : ∀ o ∈ res.1, o.isSome := by
    intro o ho
    obtain ⟨j, hj, hoj⟩ := List.getElem_of_mem ho
    have hjn : j < n := by
      have := a1
      omega
    have := a6 j (List.mem_range.2 hjn)
    rw [List.getD_eq_getElem?_getD, List.getElem?_eq_getElem hj, hoj] at this
    simpa using this
  rw [map_getD_eq_filterMap res.1 hallsome]
  have hlenfm : (res.1.filterMap id).length = res.1.length := by
    rw [← map_getD_eq_filterMap res.1 hallsome, List.length_map]
  have hulen : res.2.1.length = base.length := by
    have := a2.length_eq
    omega
  have hub : res.2.1.Perm base :=
    (List.subperm_of_subset a3 a4).perm_of_length_le (by omega)
  exact a2.trans hub

end Genetic

namespace Genetic

/-- First index minimizing the distances, as min(range(len), key=...) does in
    calculate_fitness: the fold keeps the earlier index on ties. -/
def argminIdx (ds : List ℕ) : ℕ :=
  (List.range ds.length).foldl (fun acc i => if ds.getD i 0 < ds.getD acc 0 then i else acc) 0

/-- Return value of calculate_fitness (tsp_genetic.py). -/
structure FitnessResult where
  fitness : List ℚ
  distances : List ℕ
  best_tour : List ℕ
  best_distance : ℕ

/-- Embedding of calculate_fitness (tsp_genetic.py): tour distances, the
    epsilon-guarded inverse fitness values normalized to sum 1 with a uniform
    fallback, and the first best individual with its distance. -/
def calculate_fitness (population : List (List ℕ)) (coords : ℕ → Point) : FitnessResult :=
  let distances := population.map (fun tour => calculate_tour_distance tour coords)
  let fitness : List ℚ := distances.map (fun (d : ℕ) => 1 / ((d : ℚ) + 1 / 10 ^ 10))
  let total_fitness := fitness.sum
  let normalized_fitness :=
    if 0 < total_fitness then fitness.map (fun f => f / total_fitness)
    else fitness.map (fun _ => 1 / (fitness.length : ℚ))
  let best_idx := argminIdx distances
  { fitness := normalized_fitness, distances := distances,
    best_tour := population.getD best_idx [],
    best_distance := distances.getD best_idx 0 }

/-- The population-building loop of initialize_population: shuffle a copy of
    the vertex list population_size times. -/
def initPopLoop (vertices : List ℕ) : ℕ → RNG → List (List ℕ) → List (List ℕ) × RNG
  | 0, g, population => (population, g)
  | k + 1, g, population =>
    let tg := g.shuffle vertices
    initPopLoop vertices k tg.2 (population ++ [tg.1])

/-- Embedding of initialize_population (tsp_genetic.py): random.seed(seed)
    replaces the ambient generator state, then population_size random
    permutations of the vertices are drawn. -/
def initialize_population (entropy : ℕ → ℕ → ℕ) (vertices : List ℕ)
    (population_size seed : ℕ) (g : RNG) : List (List ℕ) × RNG :=
  initPopLoop vertices population_size (seedRNG entropy seed) []

/-- The cumulative scan of select_parents: first index at which the running
    fitness sum reaches the draw; 0 when the loop never breaks, matching the
    initialization of the index before the loop. -/
def rouletteGo (r : ℚ) : List ℚ → ℚ → ℕ → ℕ
  | [], _, _ => 0
  | f :: fs, cumsum, i =>
    if r ≤ cumsum + f then i else rouletteGo r fs (cumsum + f) (i + 1)

def rouletteIdx (fitness : List ℚ) (r : ℚ) : ℕ := rouletteGo r fitness 0 0

/-- Embedding of the pair-drawing loop of select_parents (tsp_genetic.py). -/
def selectLoop (population : List (List ℕ)) (fitness : List ℚ) :
    ℕ → RNG → List (ℕ × ℕ) → List (ℕ × ℕ) × RNG
  | 0, g, parent_pairs => (parent_pairs, g)
  | k + 1, g, parent_pairs =>
    let r1g := g.random
    let parent1_idx := rouletteIdx fitness r1g.1
    let r2g := r1g.2.random
    let p2i := rouletteIdx fitness r2g.1
    let parent2_idx :=
      if parent1_idx = p2i then (parent1_idx + 1) % population.length else p2i
    selectLoop population fitness k r2g.2 (parent_pairs ++ [(parent1_idx, parent2_idx)])

/-- Embedding of select_parents (tsp_genetic.py): roulette-wheel selection of
    num_pairs pairs of parent indices, the second forced distinct. -/
def select_parents (population : List (List ℕ)) (fitness : List ℚ) (num_pairs : ℕ)
    (g : RNG) : List (ℕ × ℕ) × RNG :=
  selectLoop population fitness num_pairs g []

/-- Embedding of mutate (tsp_genetic.py): with the given probability, swap two
    distinct random positions of a copy of the tour. -/
def mutate (tour : List ℕ) (mutation_probability : ℚ) (g : RNG) : List ℕ × RNG :=
  let rg := g.random
  if rg.1 < mutation_probability then
    let sg := rg.2.sampleTwo tour.length
    (listSwap tour sg.1.1 sg.1.2, sg.2)
  else (tour, rg.2)

/-- Embedding of apply_elitism (tsp_genetic.py): indices sorted by distance,
    keep the tours of the first num_elite of them. -/
def apply_elitism (population : List (List ℕ)) (distances : List ℕ) (num_elite : ℕ) :
    List (List ℕ) :=
  let sorted_indices := (List.range distances.length).insertionSort
    (fun i j => distances.getD i 0 ≤ distances.getD j 0)
  (sorted_indices.take num_elite).map (fun i => population.getD i [])

/-- The child-building loop of solve_tsp (tsp_genetic.py): one crossover and
    one mutation per selected parent pair. -/
def breedLoop (population : List (List ℕ)) (mutation_probability : ℚ) :
    List (ℕ × ℕ) → RNG → List (List ℕ) → List (List ℕ) × RNG
  | [], g, children => (children, g)
  | pr :: rest, g, children =>
    let cg := crossover (population.getD pr.1 []) (population.getD pr.2 []) g
    let mg := mutate cg.1 mutation_probability cg.2
    breedLoop population mutation_probability rest mg.2 (children ++ [mg.1])

/-- One SELECT/BREED/REPLACE block of the generation loop: elites plus bred
    children form the next population. -/
def nextGeneration (coords : ℕ → Point) (population_size elite_size : ℕ)
    (mutation_probability : ℚ) (population : List (List ℕ)) (fr : FitnessResult)
    (g : RNG) : List (List ℕ) × RNG :=
  let elite := apply_elitism population fr.distances elite_size
  let ppg := select_parents population fr.fitness (population_size - elite_size) g
  let cg := breedLoop population mutation_probability ppg.1 ppg.2 []
  (elite ++ cg.1, cg.2)

/-- Embedding of the while-loop of solve_tsp (tsp_genetic.py). The cutoff test
    at the head of each iteration is the oracle timeOut on the generation
    number. The global best starts as None with an infinite distance, so the
    first evaluation always improves it; a strict improvement resets the
    stagnation counter and stagnation at 50 stops the loop. The loop returns
    the global best and the final population. -/
def evolveLoop (coords : ℕ → Point) (timeOut : ℕ → Bool)
    (population_size elite_size : ℕ) (mutation_probability : ℚ) :
    List (List ℕ) → Option (List ℕ × ℕ) → ℕ → ℕ → RNG →
    Option (List ℕ × ℕ) × List (List ℕ)
  | population, gbest, stag, gen, g =>
    if timeOut gen then (gbest, population)
    else
      let fr := calculate_fitness population coords
      match gbest with
      | none =>
        let pg := nextGeneration coords population_size elite_size
          mutation_probability population fr g
        evolveLoop coords timeOut population_size elite_size mutation_probability
          pg.1 (some (fr.best_tour, fr.best_distance)) 0 (gen + 1) pg.2
      | some (bt, bd) =>
        if fr.best_distance < bd then
          let pg := nextGeneration coords population_size elite_size
            mutation_probability population fr g
          evolveLoop coords timeOut population_size elite_size mutation_probability
            pg.1 (some (fr.best_tour, fr.best_distance)) 0 (gen + 1) pg.2
        else
          if stag + 1 ≥ 50 then (some (bt, bd), population)
          else
            let pg := nextGeneration coords population_size elite_size
              mutation_probability population fr g
            evolveLoop coords timeOut population_size elite_size mutation_probability
              pg.1 (some (bt, bd)) (stag + 1) (gen + 1) pg.2
termination_by population gbest stag gen g =>
  (match gbest with
   | none => (calculate_fitness population coords).best_distance + 1
   | some p => p.2) * 51 + (50 - stag)
decreasing_by
  all_goals
    try have hfr : fr.best_distance = (calculate_fitness population coords).best_distance := rfl
  all_goals omega

/-- Embedding of solve_tsp (tsp_genetic.py). The ambient generator state g0 is
    replaced via random.seed(seed) before any draw. -/
def solve_tsp (entropy : ℕ → ℕ → ℕ) (m : CoordMap) (timeOut : ℕ → Bool) (seed : ℕ)
    (g0 : RNG) : List ℕ × ℕ :=
  if m.keys = [] then ([], 0)
  else
    let vertices := sortedKeys m
    let n := vertices.length
    if n = 0 then ([], 0)
    else if n = 1 then (vertices, 0)
    else
      let population_size := max 50 (min 100 (n * 5))
      let mutation_probability : ℚ := 2 / 100
      let elite_size := max 5 (population_size / 10)
      let g1 := seedRNG entropy seed
      let pg := initialize_population entropy vertices population_size seed g1
      let res := evolveLoop m.pos timeOut population_size elite_size
        mutation_probability pg.1 none 0 1 pg.2
      match res.1 with
      | some (t, d) => (t, d)
      | none =>
        let fr := calculate_fitness res.2 m.pos
        (fr.best_tour, fr.best_distance)

end Genetic

namespace Genetic

theorem argminIdx_lt (ds : List ℕ) (h : ds ≠ []) : argminIdx ds < ds.length := by
  have hgen : ∀ (l : List ℕ) (acc : ℕ), acc < ds.length → (∀ i ∈ l, i < ds.length) →
      l.foldl (fun acc i => if ds.getD i 0 < ds.getD acc 0 then i else acc) acc < ds.length := by
    intro l
    induction l with
    | nil => intro acc hacc _; exact hacc
    | cons x xs ih =>
      intro acc hacc hl
      rw [List.foldl_cons]
      by_cases hx : ds.getD x 0 < ds.getD acc 0
      · rw [if_pos hx]
        exact ih _ (hl x (List.mem_cons_self x xs)) (fun i hi => hl i (List.mem_cons_of_mem _ hi))
      · rw [if_neg hx]
        exact ih _ hacc (fun i hi => hl i (List.mem_cons_of_mem _ hi))
  have h0 : 0 < ds.length := List.length_pos.2 h
  exact hgen (List.range ds.length) 0 h0 (fun i hi => List.mem_range.1 hi)

theorem rouletteGo_cases (r : ℚ) :
    ∀ (fs : List ℚ) (cumsum : ℚ) (i : ℕ),
    rouletteGo r fs cumsum i = 0 ∨ rouletteGo r fs cumsum i < i + fs.length := by
  intro fs
  induction fs with
  | nil => intro cumsum i; exact Or.inl rfl
  | cons f fs ih =>
    intro cumsum i
    rw [rouletteGo]
    by_cases hr : r ≤ cumsum + f
    · rw [if_pos hr]
      right
      simp
    · rw [if_neg hr]
      rcases ih (cumsum + f) (i + 1) with h | h
      · exact Or.inl h
      · right
        simp only [List.length_cons]
        omega

theorem rouletteIdx_lt (fitness : List ℚ) (r : ℚ) (h : 0 < fitness.length) :
    rouletteIdx fitness r < fitness.length := by
  rcases rouletteGo_cases r fitness 0 0 with h0 | hlt
  · rw [rouletteIdx, h0]; exact h
  · rw [rouletteIdx]; omega

theorem calculate_fitness_distances (population : List (List ℕ)) (coords : ℕ → Point) :
    (calculate_fitness population coords).distances =
      population.map (fun tour => calculate_tour_distance tour coords) := rfl

theorem calculate_fitness_fitness_length (population : List (List ℕ)) (coords : ℕ → Point) :
    (calculate_fitness population coords).fitness.length = population.length := by
  rw [calculate_fitness]
  dsimp only
  split <;> simp

/-- The best individual reported by calculate_fitness is a member of the
    population and its reported distance is its recomputed tour distance. -/
theorem calculate_fitness_best (population : List (List ℕ)) (coords : ℕ → Point)
    (h : population ≠ []) :
    (calculate_fitness population coords).best_tour ∈ population ∧
    (calculate_fitness population coords).best_distance =
      calculate_tour_distance (calculate_fitness population coords).best_tour coords := by
  have hlen : (population.map (fun tour => calculate_tour_distance tour coords)).length =
      population.length := List.length_map _ _
  have hne : population.map (fun tour => calculate_tour_distance tour coords) ≠ [] := by
    intro hc
    exact h (List.map_eq_nil_iff.1 hc)
  have hidx := argminIdx_lt _ hne
  rw [hlen] at hidx
  constructor
  · rw [calculate_fitness]
    dsimp only
    rw [List.getD_eq_getElem _ _ hidx]
    exact List.getElem_mem _
  · rw [calculate_fitness]
    dsimp only
    rw [List.getD_eq_getElem _ _ (by rw [hlen]; exact hidx),
      List.getD_eq_getElem _ _ hidx, List.getElem_map]

theorem selectLoop_lt (population : List (List ℕ)) (fitness : List ℚ)
    (hlen : fitness.length = population.length) (hne : population ≠ []) :
    ∀ (k : ℕ) (g : RNG) (acc : List (ℕ × ℕ)),
    (∀ pr ∈ acc, pr.1 < population.length ∧ pr.2 < population.length) →
    ∀ pr ∈ (selectLoop population fitness k g acc).1,
      pr.1 < population.length ∧ pr.2 < population.length := by
  intro k
  induction k with
  | zero => intro g acc hacc pr hpr; exact hacc pr hpr
  | succ k ih =>
    intro g acc hacc pr hpr
    rw [selectLoop] at hpr
    have hpos : 0 < population.length := List.length_pos.2 hne
    have hflen : 0 < fitness.length := by omega
    refine ih _ _ ?_ pr hpr
    intro q hq
    rcases List.mem_append.1 hq with hq | hq
    · exact hacc q hq
    · have : q = (rouletteIdx fitness (g.random).1,
          if rouletteIdx fitness (g.random).1 = rouletteIdx fitness ((g.random).2.random).1
          then (rouletteIdx fitness (g.random).1 + 1) % population.length
          else rouletteIdx fitness ((g.random).2.random).1) := by
        simpa using hq
      subst this
      constructor
      · have := rouletteIdx_lt fitness (g.random).1 hflen
        omega
      · dsimp only
        by_cases he : rouletteIdx fitness (g.random).1 =
            rouletteIdx fitness ((g.random).2.random).1
        · rw [if_pos he]
          exact Nat.mod_lt _ hpos
        · rw [if_neg he]
          have := rouletteIdx_lt fitness ((g.random).2.random).1 hflen
          omega

theorem selectLoop_length (population : List (List ℕ)) (fitness : List ℚ) :
    ∀ (k : ℕ) (g : RNG) (acc : List (ℕ × ℕ)),
    (selectLoop population fitness k g acc).1.length = acc.length + k := by
  intro k
  induction k with
  | zero => intro g acc; rfl
  | succ k ih =>
    intro g acc
    rw [selectLoop, ih]
    simp
    omega

/-- Mutation of a tour with at least two cities keeps it a permutation of the
    base vertex set. -/
theorem mutate_perm (base tour : List ℕ) (mp : ℚ) (g : RNG)
    (h : tour.Perm base) (h2 : 2 ≤ tour.length) :
    (mutate tour mp g).1.Perm base := by
  rw [mutate]
  dsimp only
  by_cases hr : (g.random).1 < mp
  · rw [if_pos hr]
    dsimp only [RNG.sampleTwo]
    have hn : 0 < tour.length := by omega
    have hi : ((g.random).2.next).1 % tour.length < tour.length := Nat.mod_lt _ hn
    have hj0 : (((g.random).2.next).2.next).1 % (tour.length - 1) < tour.length - 1 :=
      Nat.mod_lt _ (by omega)
    have hj : (if ((g.random).2.next).1 % tour.length ≤
          (((g.random).2.next).2.next).1 % (tour.length - 1)
        then (((g.random).2.next).2.next).1 % (tour.length - 1) + 1
        else (((g.random).2.next).2.next).1 % (tour.length - 1)) < tour.length := by
      split <;> omega
    exact (listSwap_perm tour _ _ hi hj).trans h
  · rw [if_neg hr]
    exact h

end Genetic

namespace Genetic

theorem initPopLoop_spec (vertices : List ℕ) :
    ∀ (k : ℕ) (g : RNG) (acc : List (List ℕ)),
    (∀ t ∈ acc, t.Perm vertices) →
    ((initPopLoop vertices k g acc).1.length = acc.length + k ∧
     ∀ t ∈ (initPopLoop vertices k g acc).1, t.Perm vertices) := by
  intro k
  induction k with
  | zero => intro g acc hacc; exact ⟨rfl, hacc⟩
  | succ k ih =>
    intro g acc hacc
    rw [initPopLoop]
    obtain ⟨h1, h2⟩ := ih (g.shuffle vertices).2 (acc ++ [(g.shuffle vertices).1])
      (by
        intro t ht
        rcases List.mem_append.1 ht with ht | ht
        · exact hacc t ht
        · have : t = (g.shuffle vertices).1 := by simpa using ht
          subst this
          exact shuffle_perm g vertices)
    refine ⟨?_, h2⟩
    rw [h1]
    simp
    omega

theorem apply_elitism_spec (population : List (List ℕ)) (distances : List ℕ)
    (num_elite : ℕ) (hlen : distances.length = population.length) :
    ((apply_elitism population distances num_elite).length =
      min num_elite population.length ∧
     ∀ t ∈ apply_elitism population distances num_elite, t ∈ population) := by
  rw [apply_elitism]
  have hsl : ((List.range distances.length).insertionSort
      (fun i j => distances.getD i 0 ≤ distances.getD j 0)).length = distances.length := by
    rw [(List.perm_insertionSort _ _).length_eq, List.length_range]
  constructor
  · rw [List.length_map, List.length_take, hsl, hlen]
  · intro t ht
    obtain ⟨i, hi, rfl⟩ := List.mem_map.1 ht
    have hmem : i ∈ (List.range distances.length).insertionSort
        (fun i j => distances.getD i 0 ≤ distances.getD j 0) :=
      List.mem_of_mem_take hi
    have : i ∈ List.range distances.length :=
      (List.perm_insertionSort _ _).subset hmem
    have hilt : i < population.length := by
      rw [← hlen]
      exact List.mem_range.1 this
    rw [List.getD_eq_getElem _ _ hilt]
    exact List.getElem_mem _

theorem breedLoop_spec (vertices : List ℕ) (hnd : vertices.Nodup)
    (hn2 : 2 ≤ vertices.length) (population : List (List ℕ)) (mp : ℚ)
    (hpop : ∀ t ∈ population, t.Perm vertices) :
    ∀ (pairs : List (ℕ × ℕ)) (g : RNG) (acc : List (List ℕ)),
    (∀ pr ∈ pairs, pr.1 < population.length ∧ pr.2 < population.length) →
    (∀ t ∈ acc, t.Perm vertices) →
    ((breedLoop population mp pairs g acc).1.length = acc.length + pairs.length ∧
     ∀ t ∈ (breedLoop population mp pairs g acc).1, t.Perm vertices) := by
  intro pairs
  induction pairs with
  | nil => intro g acc hpairs hacc; exact ⟨by rw [breedLoop]; simp, hacc⟩
  | cons pr rest ih =>
    intro g acc hpairs hacc
    rw [breedLoop]
    have hpr := hpairs pr (List.mem_cons_self pr rest)
    have hp1 : population.getD pr.1 [] ∈ population := by
      rw [List.getD_eq_getElem _ _ hpr.1]
      exact List.getElem_mem _
    have hp2 : population.getD pr.2 [] ∈ population := by
      rw [List.getD_eq_getElem _ _ hpr.2]
      exact List.getElem_mem _
    have hperm1 := hpop _ hp1
    have hperm2 := hpop _ hp2
    have hlen1 : (population.getD pr.1 []).length = vertices.length := hperm1.length_eq
    -- the child of the crossover is a permutation of the vertices
    have hchild : (crossover (population.getD pr.1 []) (population.getD pr.2 []) g).1.Perm
        vertices := by
      rw [crossover]
      dsimp only [RNG.randint]
      apply crossoverAt_perm vertices _ _ hnd hperm1 hperm2
      have hmod : g.next.1 % ((population.getD pr.1 []).length - 1 + 1 - 0) ≤
          (population.getD pr.1 []).length - 1 := by
        have : 0 < (population.getD pr.1 []).length - 1 + 1 - 0 := by omega
        have := Nat.mod_lt g.next.1 this
        omega
      omega
    have hchildlen : 2 ≤ (crossover (population.getD pr.1 [])
        (population.getD pr.2 []) g).1.length := by
      rw [hchild.length_eq]
      exact hn2
    have hmut : (mutate (crossover (population.getD pr.1 []) (population.getD pr.2 []) g).1
        mp (crossover (population.getD pr.1 []) (population.getD pr.2 []) g).2).1.Perm
        vertices :=
      mutate_perm vertices _ mp _ hchild hchildlen
    obtain ⟨h1, h2⟩ := ih _ (acc ++ [(mutate (crossover (population.getD pr.1 [])
        (population.getD pr.2 []) g).1 mp (crossover (population.getD pr.1 [])
        (population.getD pr.2 []) g).2).1])
      (fun q hq => hpairs q (List.mem_cons_of_mem _ hq))
      (by
        intro t ht
        rcases List.mem_append.1 ht with ht | ht
        · exact hacc t ht
        · have heq : t = (mutate (crossover (population.getD pr.1 [])
              (population.getD pr.2 []) g).1 mp (crossover (population.getD pr.1 [])
              (population.getD pr.2 []) g).2).1 := by simpa using ht
          subst heq
          exact hmut)
    refine ⟨?_, h2⟩
    rw [h1]
    simp
    omega

end Genetic

namespace Genetic

theorem nextGeneration_spec (coords : ℕ → Point) (psize elite_size : ℕ) (mp : ℚ)
    (vertices : List ℕ) (hnd : vertices.Nodup) (hn2 : 2 ≤ vertices.length)
    (hpsize : 1 ≤ psize) (helite : elite_size ≤ psize)
    (population : List (List ℕ)) (fr : FitnessResult) (g : RNG)
    (hplen : population.length = psize)
    (hpop : ∀ t ∈ population, t.Perm vertices)
    (hfit : fr.fitness.length = population.length)
    (hdist : fr.distances.length = population.length) :
    ((nextGeneration coords psize elite_size mp population fr g).1.length = psize ∧
     ∀ t ∈ (nextGeneration coords psize elite_size mp population fr g).1,
       t.Perm vertices) := by
  rw [nextGeneration]
  dsimp only
  have hne : population ≠ [] := by
    intro hc
    rw [hc] at hplen
    simp at hplen
    omega
  obtain ⟨he1, he2⟩ := apply_elitism_spec population fr.distances elite_size hdist
  have hpairs := selectLoop_lt population fr.fitness (by omega) hne
    (psize - elite_size) g [] (by intro pr hpr; exact absurd hpr (List.not_mem_nil pr))
  have hpl := selectLoop_length population fr.fitness (psize - elite_size) g []
  obtain ⟨hc1, hc2⟩ := breedLoop_spec vertices hnd hn2 population mp hpop
    (select_parents population fr.fitness (psize - elite_size) g).1
    (select_parents population fr.fitness (psize - elite_size) g).2 []
    (fun pr hpr => hpairs pr hpr) (by intro t ht; exact absurd ht (List.not_mem_nil t))
  have hsp : (select_parents population fr.fitness (psize - elite_size) g).1.length
      = psize - elite_size := by
    rw [select_parents, selectLoop_length]
    simp
  constructor
  · rw [List.length_append, he1, hc1, hsp, hplen, min_eq_left helite]
    simp only [List.length_nil]
    omega
  · intro t ht
    rcases List.mem_append.1 ht with ht | ht
    · exact hpop t (he2 t ht)
    · exact hc2 t ht

theorem evolveLoop_spec (coords : ℕ → Point) (timeOut : ℕ → Bool)
    (psize elite_size : ℕ) (mp : ℚ) (vertices : List ℕ)
    (hnd : vertices.Nodup) (hn2 : 2 ≤ vertices.length)
    (hpsize : 1 ≤ psize) (helite : elite_size ≤ psize) :
    ∀ (population : List (List ℕ)) (gbest : Option (List ℕ × ℕ)) (stag gen : ℕ) (g : RNG),
    population.length = psize → (∀ t ∈ population, t.Perm vertices) →
    (∀ t d, gbest = some (t, d) → t.Perm vertices ∧
      d = calculate_tour_distance t coords) →
    ((∀ t d, (evolveLoop coords timeOut psize elite_size mp population gbest stag gen g).1
        = some (t, d) → t.Perm vertices ∧ d = calculate_tour_distance t coords) ∧
     (evolveLoop coords timeOut psize elite_size mp population gbest stag gen g).2.length
        = psize ∧
     (∀ t ∈ (evolveLoop coords timeOut psize elite_size mp population gbest stag gen g).2,
        t.Perm vertices)) := by
  intro population gbest stag gen g
  induction population, gbest, stag, gen, g using evolveLoop.induct coords timeOut psize
    elite_size mp with
  | case1 population gbest stag gen g htime =>
    intro hplen hpop hbest
    rw [evolveLoop, if_pos htime]
    exact ⟨hbest, hplen, hpop⟩
  | case2 a1 a2 a3 a4 a5 fr pg ih =>
    intro hplen hpop hbest
    have hne : a1 ≠ [] := by
      intro hc; rw [hc] at hplen; simp at hplen; omega
    have hfit : (calculate_fitness a1 coords).fitness.length = a1.length :=
      calculate_fitness_fitness_length a1 coords
    have hdist : (calculate_fitness a1 coords).distances.length = a1.length := by
      rw [calculate_fitness_distances]; simp
    obtain ⟨hb1, hb2⟩ := calculate_fitness_best a1 coords hne
    obtain ⟨hg1, hg2⟩ := nextGeneration_spec coords psize elite_size mp vertices hnd hn2
      hpsize helite a1 (calculate_fitness a1 coords) a4 hplen hpop hfit hdist
    have hbest2 : ∀ (t : List ℕ) (d : ℕ),
        (some ((calculate_fitness a1 coords).best_tour,
          (calculate_fitness a1 coords).best_distance) : Option (List ℕ × ℕ)) = some (t, d) →
        t.Perm vertices ∧ d = calculate_tour_distance t coords := by
      intro t d h
      injection h with h
      cases h
      exact ⟨hpop _ hb1, hb2⟩
    have hrec := ih hg1 hg2 hbest2
    rw [evolveLoop, if_neg a5]
    exact hrec
  | case3 a1 a2 a3 a4 a5 fr bt bd a9 pg ih =>
    intro hplen hpop hbest
    have hne : a1 ≠ [] := by
      intro hc; rw [hc] at hplen; simp at hplen; omega
    have hfit : (calculate_fitness a1 coords).fitness.length = a1.length :=
      calculate_fitness_fitness_length a1 coords
    have hdist : (calculate_fitness a1 coords).distances.length = a1.length := by
      rw [calculate_fitness_distances]; simp
    obtain ⟨hb1, hb2⟩ := calculate_fitness_best a1 coords hne
    obtain ⟨hg1, hg2⟩ := nextGeneration_spec coords psize elite_size mp vertices hnd hn2
      hpsize helite a1 (calculate_fitness a1 coords) a4 hplen hpop hfit hdist
    have hbest2 : ∀ (t : List ℕ) (d : ℕ),
        (some ((calculate_fitness a1 coords).best_tour,
          (calculate_fitness a1 coords).best_distance) : Option (List ℕ × ℕ)) = some (t, d) →
        t.Perm vertices ∧ d = calculate_tour_distance t coords := by
      intro t d h
      injection h with h
      cases h
      exact ⟨hpop _ hb1, hb2⟩
    have hrec := ih hg1 hg2 hbest2
    rw [evolveLoop, if_neg a5]
    dsimp only
    rw [if_pos a9]
    exact hrec
  | case4 a1 a2 a3 a4 a5 fr bt bd a9 a10 =>
    intro hplen hpop hbest
    rw [evolveLoop, if_neg a5]
    dsimp only
    rw [if_neg a9, if_pos a10]
    exact ⟨hbest, hplen, hpop⟩
  | case5 a1 a2 a3 a4 a5 fr bt bd a9 a10 pg ih =>
    intro hplen hpop hbest
    have hne : a1 ≠ [] := by
      intro hc; rw [hc] at hplen; simp at hplen; omega
    have hfit : (calculate_fitness a1 coords).fitness.length = a1.length :=
      calculate_fitness_fitness_length a1 coords
    have hdist : (calculate_fitness a1 coords).distances.length = a1.length := by
      rw [calculate_fitness_distances]; simp
    obtain ⟨hg1, hg2⟩ := nextGeneration_spec coords psize elite_size mp vertices hnd hn2
      hpsize helite a1 (calculate_fitness a1 coords) a4 hplen hpop hfit hdist
    have hrec := ih hg1 hg2 hbest
    rw [evolveLoop, if_neg a5]
    dsimp only
    rw [if_neg a9, if_neg a10]
    exact hrec

/-- The genetic solver always returns a permutation of the coordinate keys
    together with the recomputed tour distance of that permutation. -/
theorem genetic_solve_spec (entropy : ℕ → ℕ → ℕ) (m : CoordMap) (timeOut : ℕ → Bool)
    (seed : ℕ) (g0 : RNG) (hnd : m.keys.Nodup) :
    (solve_tsp entropy m timeOut seed g0).1.Perm m.keys ∧
    (solve_tsp entropy m timeOut seed g0).2 =
      calculate_tour_distance (solve_tsp entropy m timeOut seed g0).1 m.pos := by
  rw [solve_tsp]
  by_cases hk : m.keys = []
  · rw [if_pos hk]
    exact ⟨by rw [hk], by simp [calculate_tour_distance]⟩
  · rw [if_neg hk]
    dsimp only
    have hperm : (sortedKeys m).Perm m.keys := List.perm_insertionSort _ _
    by_cases h0 : (sortedKeys m).length = 0
    · rw [if_pos h0]
      have hve : sortedKeys m = [] := List.length_eq_zero.1 h0
      exact ⟨hve ▸ hperm, by simp [calculate_tour_distance]⟩
    · rw [if_neg h0]
      by_cases h1 : (sortedKeys m).length = 1
      · rw [if_pos h1]
        refine ⟨hperm, ?_⟩
        dsimp only
        rw [calculate_tour_distance, if_pos (by omega)]
      · rw [if_neg h1]
        have hn2 : 2 ≤ (sortedKeys m).length := by omega
        have hp50 : 50 ≤ max 50 (min 100 ((sortedKeys m).length * 5)) := le_max_left _ _
        have hpsize : 1 ≤ max 50 (min 100 ((sortedKeys m).length * 5)) := by omega
        have helite : max 5 (max 50 (min 100 ((sortedKeys m).length * 5)) / 10) ≤
            max 50 (min 100 ((sortedKeys m).length * 5)) := by
          have h5 : 5 ≤ max 50 (min 100 ((sortedKeys m).length * 5)) / 10 := by omega
          rw [max_eq_right h5]
          omega
        have hnd2 : (sortedKeys m).Nodup := (hperm.nodup_iff).2 hnd
        obtain ⟨hil, hip⟩ := initPopLoop_spec (sortedKeys m)
          (max 50 (min 100 ((sortedKeys m).length * 5))) (seedRNG entropy seed) []
          (by intro t ht; exact absurd ht (List.not_mem_nil t))
        have hinit1 : (initialize_population entropy (sortedKeys m)
            (max 50 (min 100 ((sortedKeys m).length * 5))) seed (seedRNG entropy seed)).1.length
            = max 50 (min 100 ((sortedKeys m).length * 5)) := by
          rw [initialize_population]
          rw [hil]
          simp
        have hinit2 : ∀ t ∈ (initialize_population entropy (sortedKeys m)
            (max 50 (min 100 ((sortedKeys m).length * 5))) seed (seedRNG entropy seed)).1,
            t.Perm (sortedKeys m) := by
          rw [initialize_population]
          exact hip
        obtain ⟨hq, hp2, hp3⟩ := evolveLoop_spec m.pos timeOut
          (max 50 (min 100 ((sortedKeys m).length * 5)))
          (max 5 (max 50 (min 100 ((sortedKeys m).length * 5)) / 10)) (2 / 100)
          (sortedKeys m) hnd2 hn2 hpsize helite
          (initialize_population entropy (sortedKeys m)
            (max 50 (min 100 ((sortedKeys m).length * 5))) seed (seedRNG entropy seed)).1
          none 0 1
          (initialize_population entropy (sortedKeys m)
            (max 50 (min 100 ((sortedKeys m).length * 5))) seed (seedRNG entropy seed)).2
          hinit1 hinit2 (by intro t d h; simp at h)
        rcases hres : (evolveLoop m.pos timeOut
            (max 50 (min 100 ((sortedKeys m).length * 5)))
            (max 5 (max 50 (min 100 ((sortedKeys m).length * 5)) / 10)) (2 / 100)
            (initialize_population entropy (sortedKeys m)
              (max 50 (min 100 ((sortedKeys m).length * 5))) seed (seedRNG entropy seed)).1
            none 0 1
            (initialize_population entropy (sortedKeys m)
              (max 50 (min 100 ((sortedKeys m).length * 5))) seed
              (seedRNG entropy seed)).2).1 with _ | ⟨t, d⟩
        · dsimp only
          have hne : (evolveLoop m.pos timeOut
              (max 50 (min 100 ((sortedKeys m).length * 5)))
              (max 5 (max 50 (min 100 ((sortedKeys m).length * 5)) / 10)) (2 / 100)
              (initialize_population entropy (sortedKeys m)
                (max 50 (min 100 ((sortedKeys m).length * 5))) seed (seedRNG entropy seed)).1
              none 0 1
              (initialize_population entropy (sortedKeys m)
                (max 50 (min 100 ((sortedKeys m).length * 5))) seed
                (seedRNG entropy seed)).2).2 ≠ [] := by
            intro hc
            rw [hc] at hp2
            simp at hp2
            omega
          obtain ⟨hb1, hb2⟩ := calculate_fitness_best _ m.pos hne
          exact ⟨(hp3 _ hb1).trans hperm, hb2⟩
        · dsimp only
          obtain ⟨hq1, hq2⟩ := hq t d hres
          exact ⟨hq1.trans hperm, hq2⟩

end Genetic

namespace Approx

/-- The edge weight used inside the spanning tree construction of solve_tsp
    (tsp_approx.py): the same rounded Euclidean distance function applied to
    the coordinates of the two endpoints. -/
def primWeight (pos : ℕ → Point) (u v : ℕ) : ℕ := euclidean_distance (pos u) (pos v)

/-- State of the Prim loop of solve_tsp (tsp_approx.py); a key of none stands
    for the infinite initial keys. -/
structure PrimState where
  parent : List (Option ℕ)
  key : List (WithTop ℕ)
  in_mst : List Bool

/-- Embedding of the selection scan: the not-yet-included vertex of minimum
    key, scanning indices in ascending order with a strict comparison; none
    when no key beats infinity (u_idx = -1 in the source). -/
def selectMin (n : ℕ) (s : PrimState) : Option ℕ :=
  ((List.range n).foldl
    (fun acc i =>
      if ¬ s.in_mst.getD i false ∧ s.key.getD i ⊤ < acc.1 then (s.key.getD i ⊤, some i)
      else acc)
    ((⊤ : WithTop ℕ), (none : Option ℕ))).2

/-- Embedding of the relaxation scan after including u: every vertex not yet
    in the tree has its key and parent improved against the new edge. -/
def relax (pos : ℕ → Point) (n u : ℕ) (s : PrimState) : PrimState :=
  (List.range n).foldl
    (fun st v =>
      if ¬ st.in_mst.getD v false then
        if (primWeight pos u v : WithTop ℕ) < st.key.getD v ⊤ then
          { st with key := st.key.set v (primWeight pos u v : WithTop ℕ),
                    parent := st.parent.set v (some u) }
        else st
      else st)
    s

/-- Marking the selected vertex as part of the tree. -/
def markMst (s : PrimState) (u : ℕ) : PrimState :=
  { s with in_mst := s.in_mst.set u true }

/-- Embedding of the for-loop of Prim with its early break when no vertex is
    selectable. -/
def primLoop (pos : ℕ → Point) (n : ℕ) : ℕ → PrimState → PrimState
  | 0, s => s
  | k + 1, s =>
    match selectMin n s with
    | none => s
    | some u => primLoop pos n k (relax pos n u (markMst s u))

/-- Initial Prim state: no parents, infinite keys except the root at 0, no
    vertex included. -/
def initState (n : ℕ) : PrimState :=
  { parent := List.replicate n none,
    key := (List.replicate n (⊤ : WithTop ℕ)).set 0 ((0 : ℕ) : WithTop ℕ),
    in_mst := List.replicate n false }

/-- Embedding of the adjacency construction (tsp_approx.py): each non-root
    vertex with a parent contributes its tree edge in both directions. -/
def buildAdj (parent : List (Option ℕ)) (n : ℕ) : ℕ → List ℕ :=
  (List.range' 1 (n - 1)).foldl
    (fun adj i =>
      match parent.getD i none with
      | none => adj
      | some p => fun u =>
          if u = p then adj u ++ [i] else if u = i then adj u ++ [p] else adj u)
    (fun _ => [])

/-- Embedding of the preorder depth-first traversal of solve_tsp
    (tsp_approx.py). The pending list holds the neighbors still to be tried at
    the current level, exactly as the recursive dfs visits them in order; the
    entry test merges the callers not-visited check with an index bound that
    never fires on the adjacency lists of the tree. The visited set grows
    along the run, which the returned subtype records for termination. -/
def dfsRun (adj : ℕ → List ℕ) (n : ℕ) :
    (l : List ℕ) → (st : Finset ℕ × List ℕ) → {r : Finset ℕ × List ℕ // st.1 ⊆ r.1}
  | [], st => ⟨st, Finset.Subset.refl _⟩
  | v :: vs, st =>
    if h : n ≤ v ∨ v ∈ st.1 then
      let r := dfsRun adj n vs st
      ⟨r.1, r.2⟩
    else
      match dfsRun adj n (adj v) (insert v st.1, st.2 ++ [v]) with
      | ⟨r1, hr1⟩ =>
        match dfsRun adj n vs r1 with
        | ⟨r2, hr2⟩ =>
          ⟨r2, ((Finset.subset_insert v st.1).trans hr1).trans hr2⟩
termination_by l st => ((Finset.range n \ st.1).card, l.length)
decreasing_by
  · apply Prod.Lex.right
    simp
  · apply Prod.Lex.left
    apply Finset.card_lt_card
    push_neg at h
    rw [Finset.ssubset_iff_subset_ne]
    constructor
    · exact Finset.sdiff_subset_sdiff (Finset.Subset.refl _) (Finset.subset_insert _ _)
    · intro hcon
      have hv : v ∈ Finset.range n \ st.1 :=
        Finset.mem_sdiff.2 ⟨Finset.mem_range.2 h.1, h.2⟩
      rw [← hcon] at hv
      exact (Finset.mem_sdiff.1 hv).2 (Finset.mem_insert_self v st.1)
  · apply Prod.Lex.left
    apply Finset.card_lt_card
    push_neg at h
    rw [Finset.ssubset_iff_subset_ne]
    constructor
    · exact Finset.sdiff_subset_sdiff (Finset.Subset.refl _)
        ((Finset.subset_insert _ _).trans hr1)
    · intro hcon
      have hv : v ∈ Finset.range n \ st.1 :=
        Finset.mem_sdiff.2 ⟨Finset.mem_range.2 h.1, h.2⟩
      rw [← hcon] at hv
      exact (Finset.mem_sdiff.1 hv).2 (hr1 (Finset.mem_insert_self v st.1))

/-- Embedding of solve_tsp (tsp_approx.py): Prim over the complete graph on
    the sorted vertices, adjacency from the parent array with sorted neighbor
    lists, preorder DFS from index 0, and the tour cost from the Distance
    Model. The cutoff argument is accepted and ignored, as in the source. -/
def solve_tsp (m : CoordMap) (cutoff_time : Option ℕ := none) : List ℕ × ℕ :=
  if m.keys = [] then ([], 0)
  else
    let vertices := sortedKeys m
    let n := vertices.length
    if n = 1 then (vertices, 0)
    else
      let pos : ℕ → Point := fun i => m.pos (vertices.getD i 0)
      let s := primLoop pos n n (initState n)
      let mst_adj : ℕ → List ℕ := fun u => (buildAdj s.parent n u).insertionSort (· ≤ ·)
      let r := dfsRun mst_adj n [0] (∅, [])
      let tour := r.1.2.map (fun i => vertices.getD i 0)
      (tour, calculate_tour_distance tour m.pos)

end Approx

namespace Approx

/-- Invariant of the selection fold: the accumulator is either the initial
    infinite minimum with no index, or records an unincluded vertex whose key
    it holds, strictly below infinity. -/
def SelAcc (s : PrimState) (acc : WithTop ℕ × Option ℕ) : Prop :=
  acc = ((⊤ : WithTop ℕ), none) ∨
  ∃ u, acc.2 = some u ∧ s.in_mst.getD u false = false ∧
    acc.1 = s.key.getD u ⊤ ∧ acc.1 < ⊤

theorem selFold_acc (s : PrimState) :
    ∀ (l : List ℕ) (acc : WithTop ℕ × Option ℕ), SelAcc s acc →
    SelAcc s (l.foldl
      (fun acc i =>
        if ¬ s.in_mst.getD i false ∧ s.key.getD i ⊤ < acc.1 then (s.key.getD i ⊤, some i)
        else acc) acc) := by
  intro l
  induction l with
  | nil => intro acc h; exact h
  | cons i l ih =>
    intro acc hacc
    rw [List.foldl_cons]
    by_cases hc : ¬ s.in_mst.getD i false ∧ s.key.getD i ⊤ < acc.1
    · rw [if_pos hc]
      refine ih _ (Or.inr ⟨i, rfl, ?_, rfl, ?_⟩)
      · simpa using hc.1
      · exact lt_of_lt_of_le hc.2 le_top
    · rw [if_neg hc]
      exact ih _ hacc

theorem selFold_stays_some (s : PrimState) :
    ∀ (l : List ℕ) (acc : WithTop ℕ × Option ℕ), acc.2 ≠ none →
    (l.foldl
      (fun acc i =>
        if ¬ s.in_mst.getD i false ∧ s.key.getD i ⊤ < acc.1 then (s.key.getD i ⊤, some i)
        else acc) acc).2 ≠ none := by
  intro l
  induction l with
  | nil => intro acc h; exact h
  | cons i l ih =>
    intro acc hacc
    rw [List.foldl_cons]
    by_cases hc : ¬ s.in_mst.getD i false ∧ s.key.getD i ⊤ < acc.1
    · rw [if_pos hc]
      exact ih _ (by simp)
    · rw [if_neg hc]
      exact ih _ hacc

/-- A selected vertex is in range, not yet included, and has a finite key. -/
theorem selectMin_some (n : ℕ) (s : PrimState) (u : ℕ) (h : selectMin n s = some u) :
    s.in_mst.getD u false = false ∧ s.key.getD u ⊤ < ⊤ := by
  have hsel := selFold_acc s (List.range n) ((⊤ : WithTop ℕ), none) (Or.inl rfl)
  rcases hsel with he | ⟨w, hw2, hw3, hw4, hw5⟩
  · rw [selectMin, he] at h
    simp at h
  · rw [selectMin, hw2] at h
    injection h with h
    subst h
    exact ⟨hw3, hw4 ▸ hw5⟩

/-- If some unincluded vertex has a finite key, selection succeeds. -/
theorem selectMin_isSome (n : ℕ) (s : PrimState)
    (hex : ∃ v ∈ List.range n, s.in_mst.getD v false = false ∧ s.key.getD v ⊤ < ⊤) :
    selectMin n s ≠ none := by
  rw [selectMin]
  suffices H : ∀ (l : List ℕ) (acc : WithTop ℕ × Option ℕ), SelAcc s acc →
      (∃ v ∈ l, s.in_mst.getD v false = false ∧ s.key.getD v ⊤ < ⊤) ∨ acc.2 ≠ none →
      (l.foldl
        (fun acc i =>
          if ¬ s.in_mst.getD i false ∧ s.key.getD i ⊤ < acc.1 then (s.key.getD i ⊤, some i)
          else acc) acc).2 ≠ none by
    exact H (List.range n) _ (Or.inl rfl) (Or.inl hex)
  intro l
  induction l with
  | nil =>
    intro acc hacc hor
    rcases hor with ⟨v, hv, _⟩ | h
    · exact absurd hv (List.not_mem_nil v)
    · exact h
  | cons i l ih =>
    intro acc hacc hor
    rw [List.foldl_cons]
    by_cases hc : ¬ s.in_mst.getD i false ∧ s.key.getD i ⊤ < acc.1
    · rw [if_pos hc]
      exact selFold_stays_some s l _ (by simp)
    · rw [if_neg hc]
      rcases hor with ⟨v, hv, hv1, hv2⟩ | hsome
      · rcases List.mem_cons.1 hv with rfl | hv
        · -- the witness is i itself but the update did not fire, so the
          -- accumulator already records a vertex
          push_neg at hc
          have hle : acc.1 ≤ s.key.getD v ⊤ := hc (by rw [hv1]; simp)
          have hlt : acc.1 < ⊤ := lt_of_le_of_lt hle hv2
          rcases hacc with he | hsome
          · rw [he] at hlt
            exact absurd hlt (lt_irrefl _)
          · obtain ⟨w, hw2, hw3, hw4, hw5⟩ := hsome
            refine ih _ (Or.inr ⟨w, hw2, hw3, hw4, hw5⟩) (Or.inr ?_)
            rw [hw2]
            simp
        · exact ih _ hacc (Or.inl ⟨v, hv, hv1, hv2⟩)
      · exact ih _ hacc (Or.inr hsome)

theorem selFold_mem (s : PrimState) :
    ∀ (l : List ℕ) (acc : WithTop ℕ × Option ℕ) (u : ℕ),
    (l.foldl
      (fun acc i =>
        if ¬ s.in_mst.getD i false ∧ s.key.getD i ⊤ < acc.1 then (s.key.getD i ⊤, some i)
        else acc) acc).2 = some u → u ∈ l ∨ acc.2 = some u := by
  intro l
  induction l with
  | nil => intro acc u h; exact Or.inr h
  | cons i l ih =>
    intro acc u h
    rw [List.foldl_cons] at h
    by_cases hc : ¬ s.in_mst.getD i false ∧ s.key.getD i ⊤ < acc.1
    · rw [if_pos hc] at h
      rcases ih _ u h with hm | hm
      · exact Or.inl (List.mem_cons_of_mem _ hm)
      · simp only at hm
        injection hm with hm
        subst hm
        exact Or.inl (List.mem_cons_self _ _)
    · rw [if_neg hc] at h
      rcases ih _ u h with hm | hm
      · exact Or.inl (List.mem_cons_of_mem _ hm)
      · exact Or.inr hm

/-- When every vertex is included, selection fails. -/
theorem selectMin_none (n : ℕ) (s : PrimState)
    (hall : ∀ v < n, s.in_mst.getD v false = true) : selectMin n s = none := by
  cases hsel : selectMin n s with
  | none => rfl
  | some u =>
    have h1 := selectMin_some n s u hsel
    have hu : u < n := by
      rcases selFold_mem s (List.range n) ((⊤ : WithTop ℕ), none) u hsel with hm | hm
      · exact List.mem_range.1 hm
      · simp at hm
    rw [hall u hu] at h1
    simp at h1

end Approx

namespace Approx

/-- Pointwise effect of the relaxation fold: membership flags are untouched,
    and each in-range vertex is improved exactly when it is outside the tree
    and the new edge beats its key; everything else is unchanged. -/
theorem relaxFold_effect (pos : ℕ → Point) (u : ℕ) :
    ∀ (l : List ℕ) (s : PrimState), l.Nodup → (∀ v ∈ l, v < s.key.length) →
    (∀ v ∈ l, v < s.parent.length) →
    (let s' := l.foldl
      (fun st v =>
        if ¬ st.in_mst.getD v false then
          if (primWeight pos u v : WithTop ℕ) < st.key.getD v ⊤ then
            { st with key := st.key.set v (primWeight pos u v : WithTop ℕ),
                      parent := st.parent.set v (some u) }
          else st
        else st) s
     s'.in_mst = s.in_mst ∧ s'.key.length = s.key.length ∧
     s'.parent.length = s.parent.length ∧
     (∀ v, v ∉ l → s'.key.getD v ⊤ = s.key.getD v ⊤ ∧
        s'.parent.getD v none = s.parent.getD v none) ∧
     (∀ v ∈ l,
        if s.in_mst.getD v false = false ∧
            (primWeight pos u v : WithTop ℕ) < s.key.getD v ⊤ then
          s'.key.getD v ⊤ = (primWeight pos u v : WithTop ℕ) ∧
          s'.parent.getD v none = some u
        else
          s'.key.getD v ⊤ = s.key.getD v ⊤ ∧
          s'.parent.getD v none = s.parent.getD v none)) := by
  intro l
  induction l with
  | nil =>
    intro s hnd hbk hbp
    exact ⟨rfl, rfl, rfl, fun v _ => ⟨rfl, rfl⟩, fun v hv => absurd hv (List.not_mem_nil v)⟩
  | cons x l ih =>
    intro s hnd hbk hbp
    rw [List.foldl_cons]
    have hxk : x < s.key.length := hbk x (List.mem_cons_self x l)
    have hxp : x < s.parent.length := hbp x (List.mem_cons_self x l)
    have hxl : x ∉ l := (List.nodup_cons.1 hnd).1
    by_cases hm : s.in_mst.getD x false
    · -- x is already in the tree; nothing happens at x
      rw [if_neg (not_not_intro hm)]
      obtain ⟨a1, a2, a3, a4, a5⟩ := ih s (List.nodup_cons.1 hnd).2
        (fun v hv => hbk v (List.mem_cons_of_mem _ hv))
        (fun v hv => hbp v (List.mem_cons_of_mem _ hv))
      refine ⟨a1, a2, a3, fun v hv => a4 v (fun hc => hv (List.mem_cons_of_mem _ hc)), ?_⟩
      intro v hv
      rcases List.mem_cons.1 hv with rfl | hv
      · rw [if_neg (by rw [hm]; simp)]
        exact a4 v hxl
      · exact a5 v hv
    · rw [if_pos hm]
      have hmf : s.in_mst.getD x false = false := by
        cases hb : s.in_mst.getD x false
        · rfl
        · rw [hb] at hm; simp at hm
      by_cases hw : (primWeight pos u x : WithTop ℕ) < s.key.getD x ⊤
      · rw [if_pos hw]
        set s1 : PrimState :=
          { s with key := s.key.set x (primWeight pos u x : WithTop ℕ),
                   parent := s.parent.set x (some u) } with hs1
        have hk1 : s1.key.length = s.key.length := by rw [hs1]; simp
        have hp1 : s1.parent.length = s.parent.length := by rw [hs1]; simp
        obtain ⟨a1, a2, a3, a4, a5⟩ := ih s1 (List.nodup_cons.1 hnd).2
          (fun v hv => by rw [hk1]; exact hbk v (List.mem_cons_of_mem _ hv))
          (fun v hv => by rw [hp1]; exact hbp v (List.mem_cons_of_mem _ hv))
        have hs1m : s1.in_mst = s.in_mst := rfl
        have hkx : s1.key.getD x ⊤ = (primWeight pos u x : WithTop ℕ) := by
          rw [hs1]
          dsimp only
          rw [List.getD_eq_getElem?_getD, List.getElem?_set_self hxk]
          rfl
        have hpx : s1.parent.getD x none = some u := by
          rw [hs1]
          dsimp only
          rw [List.getD_eq_getElem?_getD, List.getElem?_set_self hxp]
          rfl
        have hkv : ∀ v, v ≠ x → s1.key.getD v ⊤ = s.key.getD v ⊤ := by
          intro v hv
          rw [hs1]
          dsimp only
          rw [List.getD_eq_getElem?_getD, List.getElem?_set_ne (fun hc => hv hc.symm),
            ← List.getD_eq_getElem?_getD]
        have hpv : ∀ v, v ≠ x → s1.parent.getD v none = s.parent.getD v none := by
          intro v hv
          rw [hs1]
          dsimp only
          rw [List.getD_eq_getElem?_getD, List.getElem?_set_ne (fun hc => hv hc.symm),
            ← List.getD_eq_getElem?_getD]
        refine ⟨a1.trans hs1m, a2.trans hk1, a3.trans hp1, ?_, ?_⟩
        · intro v hv
          have hvx : v ≠ x := fun hc => hv (hc ▸ List.mem_cons_self x l)
          have hvl : v ∉ l := fun hc => hv (List.mem_cons_of_mem _ hc)
          obtain ⟨b1, b2⟩ := a4 v hvl
          exact ⟨b1.trans (hkv v hvx), b2.trans (hpv v hvx)⟩
        · intro v hv
          rcases List.mem_cons.1 hv with rfl | hv
          · rw [if_pos ⟨hmf, hw⟩]
            obtain ⟨b1, b2⟩ := a4 v hxl
            exact ⟨b1.trans hkx, b2.trans hpx⟩
          · have hvx : v ≠ x := fun hc => hxl (hc ▸ hv)
            have := a5 v hv
            rw [hs1m] at this
            rw [hkv v hvx] at this
            rw [hpv v hvx] at this
            exact this
      · rw [if_neg hw]
        obtain ⟨a1, a2, a3, a4, a5⟩ := ih s (List.nodup_cons.1 hnd).2
          (fun v hv => hbk v (List.mem_cons_of_mem _ hv))
          (fun v hv => hbp v (List.mem_cons_of_mem _ hv))
        refine ⟨a1, a2, a3, fun v hv => a4 v (fun hc => hv (List.mem_cons_of_mem _ hc)), ?_⟩
        intro v hv
        rcases List.mem_cons.1 hv with rfl | hv
        · rw [if_neg (fun hc => hw hc.2)]
          exact a4 v hxl
        · exact a5 v hv

end Approx

namespace Approx

theorem getD_set_self {α : Type} (l : List α) (i : ℕ) (hi : i < l.length) (a d : α) :
    (l.set i a).getD i d = a := by
  rw [List.getD_eq_getElem?_getD, List.getElem?_set_self hi]
  rfl

theorem getD_set_ne {α : Type} (l : List α) (i j : ℕ) (h : i ≠ j) (a d : α) :
    (l.set i a).getD j d = l.getD j d := by
  rw [List.getD_eq_getElem?_getD, List.getElem?_set_ne h, ← List.getD_eq_getElem?_getD]

/-- The tree-edge relation recorded by the parent array among included
    vertices. -/
def edgeR (s : PrimState) (a b : ℕ) : Prop :=
  s.parent.getD b none = some a ∧ s.in_mst.getD a false = true ∧
  s.in_mst.getD b false = true

/-- Invariant of the Prim loop on an instance of n vertices. -/
def Inv (n : ℕ) (s : PrimState) : Prop :=
  s.parent.length = n ∧ s.key.length = n ∧ s.in_mst.length = n ∧
  (∀ v < n, s.in_mst.getD v false = true → Relation.ReflTransGen (edgeR s) 0 v) ∧
  (∀ v < n, s.in_mst.getD v false = false → s.key.getD v ⊤ < ⊤ →
    (v = 0 ∧ s.parent.getD v none = none) ∨
    (∃ p, p < n ∧ s.parent.getD v none = some p ∧ s.in_mst.getD p false = true)) ∧
  (∀ v, v < n → ∀ p, s.parent.getD v none = some p → p < n) ∧
  s.parent.getD 0 none = none ∧
  (s.in_mst.getD 0 false = false → ∀ v, s.in_mst.getD v false = false) ∧
  ((∃ v, v < n ∧ s.in_mst.getD v false = false) →
    ∃ v, v < n ∧ s.in_mst.getD v false = false ∧ s.key.getD v ⊤ < ⊤)

theorem selectMin_lt (n : ℕ) (s : PrimState) (u : ℕ) (h : selectMin n s = some u) :
    u < n := by
  rcases selFold_mem s (List.range n) ((⊤ : WithTop ℕ), none) u h with hm | hm
  · exact List.mem_range.1 hm
  · simp at hm

theorem initState_inv (n : ℕ) : Inv n (initState n) := by
  have hkey : ∀ v, (initState n).key.getD v ⊤ = if v = 0 ∧ 0 < n then ((0 : ℕ) : WithTop ℕ)
      else ⊤ := by
    intro v
    rw [initState]
    dsimp only
    by_cases hv : v = 0 ∧ 0 < n
    · rw [if_pos hv, hv.1]
      exact getD_set_self _ 0 (by simp [hv.2]) _ _
    · rw [if_neg hv]
      by_cases h0 : v = 0
      · subst h0
        have hn : ¬ 0 < n := fun hc => hv ⟨rfl, hc⟩
        have hn0 : n = 0 := by omega
        subst hn0
        rfl
      · rw [getD_set_ne _ 0 v (fun hc => h0 hc.symm)]
        rw [List.getD_eq_getElem?_getD]
        by_cases hlt : v < n
        · rw [List.getElem?_eq_getElem (by simpa using hlt)]
          simp
        · rw [List.getElem?_eq_none (by simpa using hlt)]
          rfl
  refine ⟨by simp [initState], by simp [initState], by simp [initState], ?_, ?_, ?_, ?_, ?_, ?_⟩
  · intro v hv hm
    rw [initState] at hm
    dsimp only at hm
    rw [List.getD_eq_getElem?_getD] at hm
    by_cases hlt : v < n
    · rw [List.getElem?_eq_getElem (by simpa using hlt)] at hm
      simp at hm
    · rw [List.getElem?_eq_none (by simpa using hlt)] at hm
      simp at hm
  · intro v hv hm hk
    left
    have hv0 : v = 0 := by
      by_contra hv0
      rw [hkey v, if_neg (fun hc => hv0 hc.1)] at hk
      exact absurd hk (lt_irrefl _)
    subst hv0
    refine ⟨rfl, ?_⟩
    rw [initState]
    dsimp only
    rw [List.getD_eq_getElem?_getD]
    by_cases hlt : 0 < n
    · rw [List.getElem?_eq_getElem (by simpa using hlt)]
      simp
    · rw [List.getElem?_eq_none (by simpa using hlt)]
      rfl
  · intro v hv p hp
    rw [initState] at hp
    dsimp only at hp
    rw [List.getD_eq_getElem?_getD] at hp
    by_cases hlt : v < n
    · rw [List.getElem?_eq_getElem (by simpa using hlt)] at hp
      simp at hp
    · rw [List.getElem?_eq_none (by simpa using hlt)] at hp
      simp at hp
  · rw [initState]
    dsimp only
    rw [List.getD_eq_getElem?_getD]
    by_cases hlt : 0 < n
    · rw [List.getElem?_eq_getElem (by simpa using hlt)]
      simp
    · rw [List.getElem?_eq_none (by simpa using hlt)]
      rfl
  · intro h0 v
    rw [initState]
    dsimp only
    rw [List.getD_eq_getElem?_getD]
    by_cases hlt : v < n
    · rw [List.getElem?_eq_getElem (by simpa using hlt)]
      simp
    · rw [List.getElem?_eq_none (by simpa using hlt)]
      rfl
  · intro ⟨v, hv, _⟩
    refine ⟨0, by omega, ?_, ?_⟩
    · rw [initState]
      dsimp only
      rw [List.getD_eq_getElem?_getD, List.getElem?_eq_getElem (by simpa using (by omega : 0 < n))]
      simp
    · rw [hkey 0, if_pos ⟨rfl, by omega⟩]
      exact WithTop.coe_lt_top 0

end Approx

namespace Approx

/-- Specialization of the relaxation effect to the full index range. -/
theorem relax_effect (pos : ℕ → Point) (n u : ℕ) (s : PrimState)
    (hk : s.key.length = n) (hp : s.parent.length = n) :
    (relax pos n u s).in_mst = s.in_mst ∧
    (relax pos n u s).key.length = n ∧ (relax pos n u s).parent.length = n ∧
    (∀ v, v < n →
      if s.in_mst.getD v false = false ∧
          (primWeight pos u v : WithTop ℕ) < s.key.getD v ⊤ then
        (relax pos n u s).key.getD v ⊤ = (primWeight pos u v : WithTop ℕ) ∧
        (relax pos n u s).parent.getD v none = some u
      else
        (relax pos n u s).key.getD v ⊤ = s.key.getD v ⊤ ∧
        (relax pos n u s).parent.getD v none = s.parent.getD v none) ∧
    (∀ v, n ≤ v → (relax pos n u s).key.getD v ⊤ = s.key.getD v ⊤ ∧
      (relax pos n u s).parent.getD v none = s.parent.getD v none) := by
  obtain ⟨a1, a2, a3, a4, a5⟩ := relaxFold_effect pos u (List.range n) s
    (List.nodup_range n) (fun v hv => hk ▸ List.mem_range.1 hv)
    (fun v hv => hp ▸ List.mem_range.1 hv)
  exact ⟨a1, hk ▸ a2, hp ▸ a3,
    fun v hv => a5 v (List.mem_range.2 hv),
    fun v hv => a4 v (fun hc => by have := List.mem_range.1 hc; omega)⟩

/-- One Prim iteration preserves the invariant; the selected vertex was
    outside the tree, is in range, and is the only newly included vertex. -/
theorem primStep_inv (pos : ℕ → Point) (n : ℕ) (s : PrimState) (u : ℕ)
    (hInv : Inv n s) (hsel : selectMin n s = some u) :
    Inv n (relax pos n u (markMst s u)) ∧
    (relax pos n u (markMst s u)).in_mst = s.in_mst.set u true ∧
    u < n ∧ s.in_mst.getD u false = false := by
  obtain ⟨L1, L2, L3, I4, I5, I6, I7, I8, I9⟩ := hInv
  have hu : u < n := selectMin_lt n s u hsel
  obtain ⟨humst, hukey⟩ := selectMin_some n s u hsel
  have hn0 : 0 < n := by omega
  set s1 := markMst s u with hs1
  have hs1p : s1.parent = s.parent := rfl
  have hs1k : s1.key = s.key := rfl
  have hs1m : s1.in_mst = s.in_mst.set u true := rfl
  obtain ⟨E1, E2, E3, E4, E5⟩ := relax_effect pos n u s1 (hs1k ▸ L2) (hs1p ▸ L1)
  set s2 := relax pos n u s1 with hs2
  have hflag : ∀ v, s2.in_mst.getD v false = if v = u then true
      else s.in_mst.getD v false := by
    intro v
    rw [E1, hs1m]
    by_cases hv : v = u
    · subst hv
      rw [if_pos rfl, getD_set_self _ _ (by omega) _ _]
    · rw [if_neg hv, getD_set_ne _ _ _ (fun hc => hv hc.symm)]
  have hs1flag : ∀ v, s1.in_mst.getD v false = if v = u then true
      else s.in_mst.getD v false := by
    intro v
    rw [hs1m]
    by_cases hv : v = u
    · subst hv
      rw [if_pos rfl, getD_set_self _ _ (by omega) _ _]
    · rw [if_neg hv, getD_set_ne _ _ _ (fun hc => hv hc.symm)]
  -- either the root is already included or the selected vertex is the root
  have hcase : s.in_mst.getD 0 false = true ∨ u = 0 := by
    cases hb : s.in_mst.getD 0 false with
    | true => exact Or.inl rfl
    | false =>
      have hall := I8 hb
      rcases I5 u hu humst hukey with ⟨h0, _⟩ | ⟨p, _, _, hpm⟩
      · exact Or.inr h0
      · rw [hall p] at hpm
        simp at hpm
  have hroot : s2.in_mst.getD 0 false = true := by
    rw [hflag 0]
    by_cases h0 : (0 : ℕ) = u
    · rw [if_pos h0]
    · rw [if_neg h0]
      rcases hcase with hc | hc
      · exact hc
      · exact absurd hc.symm h0
  -- parents of vertices already in the tree are untouched by the relaxation
  have hfrozen : ∀ v, s1.in_mst.getD v false = true →
      s2.parent.getD v none = s.parent.getD v none := by
    intro v hv
    by_cases hvn : v < n
    · have := E4 v hvn
      rw [if_neg (by rw [hv]; simp)] at this
      exact this.2.trans (by rw [hs1p])
    · exact (E5 v (by omega)).2.trans (by rw [hs1p])
  have hfrozenflag : ∀ v, s.in_mst.getD v false = true → s2.in_mst.getD v false = true := by
    intro v hv
    rw [hflag]
    by_cases hvu : v = u
    · rw [if_pos hvu]
    · rw [if_neg hvu]
      exact hv
  have hedge : ∀ a b, edgeR s a b → edgeR s2 a b := by
    intro a b hab
    obtain ⟨he1, he2, he3⟩ := hab
    have hb1 : s1.in_mst.getD b false = true := by
      rw [hs1flag]
      by_cases hbu : b = u
      · rw [if_pos hbu]
      · rw [if_neg hbu]
        exact he3
    refine ⟨?_, hfrozenflag a he2, hfrozenflag b he3⟩
    rw [hfrozen b hb1]
    exact he1
  have hchain : ∀ v, Relation.ReflTransGen (edgeR s) 0 v →
      Relation.ReflTransGen (edgeR s2) 0 v :=
    fun v h => Relation.ReflTransGen.mono hedge h
  have huparent : s2.parent.getD u none = s.parent.getD u none := by
    apply hfrozen
    rw [hs1flag, if_pos rfl]
  refine ⟨⟨E3, E2, by rw [E1, hs1m, List.length_set]; exact L3, ?_, ?_, ?_, ?_, ?_, ?_⟩,
    E1.trans hs1m, hu, humst⟩
  · -- chains for all included vertices
    intro v hv hm
    rw [hflag] at hm
    by_cases hvu : v = u
    · subst hvu
      rcases I5 v hu humst hukey with ⟨h0, _⟩ | ⟨p, hp, hpar, hpm⟩
      · subst h0
        exact Relation.ReflTransGen.refl
      · have hch := hchain p (I4 p hp hpm)
        refine hch.tail ?_
        refine ⟨?_, hfrozenflag p hpm, ?_⟩
        · rw [huparent]
          exact hpar
        · rw [hflag, if_pos rfl]
    · rw [if_neg hvu] at hm
      exact hchain v (I4 v hv hm)
  · -- finite keys outside the tree have an included parent
    intro v hv hm hk
    have hvu : v ≠ u := by
      intro hc
      rw [hflag, if_pos hc] at hm
      simp at hm
    have hvs : s.in_mst.getD v false = false := by
      rw [hflag, if_neg hvu] at hm
      exact hm
    have hs1v : s1.in_mst.getD v false = false := by
      rw [hs1flag, if_neg hvu]
      exact hvs
    have hE := E4 v hv
    by_cases hcond : s1.in_mst.getD v false = false ∧
        (primWeight pos u v : WithTop ℕ) < s1.key.getD v ⊤
    · rw [if_pos hcond] at hE
      right
      refine ⟨u, hu, hE.2, ?_⟩
      rw [hflag, if_pos rfl]
    · rw [if_neg hcond] at hE
      have hkold : s.key.getD v ⊤ < ⊤ := by
        have h1 : s2.key.getD v ⊤ = s.key.getD v ⊤ := by rw [hE.1, hs1k]
        rw [← h1]
        exact hk
      rcases I5 v hv hvs hkold with ⟨h0, hpn⟩ | ⟨p, hp, hpar, hpm⟩
      · left
        refine ⟨h0, ?_⟩
        rw [hE.2, hs1p]
        exact h0 ▸ hpn
      · right
        refine ⟨p, hp, ?_, hfrozenflag p hpm⟩
        rw [hE.2, hs1p]
        exact hpar
  · -- parents in range
    intro v hv p hp
    have hE := E4 v hv
    by_cases hcond : s1.in_mst.getD v false = false ∧
        (primWeight pos u v : WithTop ℕ) < s1.key.getD v ⊤
    · rw [if_pos hcond] at hE
      rw [hE.2] at hp
      injection hp with hp
      omega
    · rw [if_neg hcond] at hE
      rw [hE.2, hs1p] at hp
      exact I6 v hv p hp
  · -- the root keeps no parent
    have hE := E4 0 hn0
    have h0flag : s1.in_mst.getD 0 false = true := by
      rw [hs1flag]
      by_cases h0 : (0 : ℕ) = u
      · rw [if_pos h0]
      · rw [if_neg h0]
        rcases hcase with hc | hc
        · exact hc
        · exact absurd hc.symm h0
    rw [if_neg (by rw [h0flag]; simp)] at hE
    rw [hE.2, hs1p]
    exact I7
  · -- root-first property
    intro h0
    rw [hroot] at h0
    simp at h0
  · -- some excluded vertex keeps a finite key
    intro ⟨v, hv, hm⟩
    have hvu : v ≠ u := by
      intro hc
      rw [hflag, if_pos hc] at hm
      simp at hm
    have hvs : s.in_mst.getD v false = false := by
      rw [hflag, if_neg hvu] at hm
      exact hm
    have hs1v : s1.in_mst.getD v false = false := by
      rw [hs1flag, if_neg hvu]
      exact hvs
    refine ⟨v, hv, hm, ?_⟩
    have hE := E4 v hv
    by_cases hcond : s1.in_mst.getD v false = false ∧
        (primWeight pos u v : WithTop ℕ) < s1.key.getD v ⊤
    · rw [if_pos hcond] at hE
      rw [hE.1]
      exact WithTop.coe_lt_top _
    · rw [if_neg hcond] at hE
      rw [hE.1, hs1k]
      have hnlt : ¬ (primWeight pos u v : WithTop ℕ) < s1.key.getD v ⊤ := by
        intro hc
        exact hcond ⟨hs1v, hc⟩
      have := not_lt.1 hnlt
      rw [hs1k] at this
      exact lt_of_le_of_lt this (WithTop.coe_lt_top _)

end Approx

namespace Approx

/-- Number of vertices not yet included in the tree. -/
def unmarkedCount (n : ℕ) (s : PrimState) : ℕ :=
  ((Finset.range n).filter (fun v => s.in_mst.getD v false = false)).card

theorem unmarkedCount_zero (n : ℕ) (s : PrimState) (h : unmarkedCount n s = 0) :
    ∀ v < n, s.in_mst.getD v false = true := by
  intro v hv
  rw [unmarkedCount, Finset.card_eq_zero] at h
  have := Finset.eq_empty_iff_forall_not_mem.1 h v
  rw [Finset.mem_filter, Finset.mem_range] at this
  cases hb : s.in_mst.getD v false with
  | true => rfl
  | false => exact absurd ⟨hv, hb⟩ this

theorem unmarkedCount_step (n : ℕ) (s s' : PrimState) (u : ℕ) (hu : u < n)
    (hf : s.in_mst.getD u false = false) (hl : s.in_mst.length = n)
    (hs' : s'.in_mst = s.in_mst.set u true) :
    unmarkedCount n s' = unmarkedCount n s - 1 ∧ 0 < unmarkedCount n s := by
  have hmem : u ∈ (Finset.range n).filter (fun v => s.in_mst.getD v false = false) := by
    rw [Finset.mem_filter, Finset.mem_range]
    exact ⟨hu, hf⟩
  have hset : (Finset.range n).filter (fun v => s'.in_mst.getD v false = false) =
      ((Finset.range n).filter (fun v => s.in_mst.getD v false = false)).erase u := by
    apply Finset.ext
    intro v
    rw [Finset.mem_erase, Finset.mem_filter, Finset.mem_filter, Finset.mem_range]
    constructor
    · intro ⟨h1, h2⟩
      have hvu : v ≠ u := by
        intro hc
        subst hc
        rw [hs', getD_set_self _ _ (by omega) _ _] at h2
        simp at h2
      rw [hs', getD_set_ne _ _ _ (fun hc => hvu hc.symm)] at h2
      exact ⟨hvu, h1, h2⟩
    · intro ⟨hvu, h1, h2⟩
      refine ⟨h1, ?_⟩
      rw [hs', getD_set_ne _ _ _ (fun hc => hvu hc.symm)]
      exact h2
  constructor
  · rw [unmarkedCount, unmarkedCount, hset, Finset.card_erase_of_mem hmem]
  · rw [unmarkedCount]
    exact Finset.card_pos.2 ⟨u, hmem⟩

/-- Running Prim with enough fuel includes every vertex while preserving the
    invariant. -/
theorem primLoop_inv (pos : ℕ → Point) (n : ℕ) :
    ∀ (fuel : ℕ) (s : PrimState), Inv n s → unmarkedCount n s ≤ fuel →
    Inv n (primLoop pos n fuel s) ∧
    ∀ v < n, (primLoop pos n fuel s).in_mst.getD v false = true := by
  intro fuel
  induction fuel with
  | zero =>
    intro s hInv hcount
    exact ⟨hInv, unmarkedCount_zero n s (by omega)⟩
  | succ k ih =>
    intro s hInv hcount
    rw [primLoop]
    cases hsel : selectMin n s with
    | none =>
      refine ⟨hInv, ?_⟩
      intro v hv
      by_contra hc
      have hfv : s.in_mst.getD v false = false := by
        cases hb : s.in_mst.getD v false with
        | false => rfl
        | true => exact absurd hb hc
      obtain ⟨w, hw, hwf, hwk⟩ := hInv.2.2.2.2.2.2.2.2 ⟨v, hv, hfv⟩
      have := selectMin_isSome n s ⟨w, List.mem_range.2 hw, hwf, hwk⟩
      exact this hsel
    | some u =>
      obtain ⟨hInv2, hmst, hu, hf⟩ := primStep_inv pos n s u hInv hsel
      obtain ⟨hc1, hc2⟩ := unmarkedCount_step n s _ u hu hf hInv.2.2.1 hmst
      exact ih _ hInv2 (by omega)

end Approx

namespace Approx

/-- Specification of the preorder depth-first traversal: the visited set is
    exactly the set of cities of the accumulated tour, which stays free of
    duplicates; only in-range vertices are ever added; every in-range pending
    vertex gets visited; and every neighbor of a newly visited vertex is
    visited by the end of the run. -/
theorem dfsRun_spec (adj : ℕ → List ℕ) (n : ℕ) :
    ∀ (l : List ℕ) (st : Finset ℕ × List ℕ),
    st.1 = st.2.toFinset → st.2.Nodup →
    ((dfsRun adj n l st).1.1 = (dfsRun adj n l st).1.2.toFinset ∧
     (dfsRun adj n l st).1.2.Nodup ∧
     (dfsRun adj n l st).1.1 ⊆ st.1 ∪ Finset.range n ∧
     (∀ v ∈ l, v < n → v ∈ (dfsRun adj n l st).1.1) ∧
     (∀ w ∈ (dfsRun adj n l st).1.1, w ∉ st.1 →
        ∀ x ∈ adj w, x < n → x ∈ (dfsRun adj n l st).1.1)) := by
  intro l st
  induction l, st using dfsRun.induct adj n with
  | case1 st =>
    intro h1 h2
    rw [dfsRun]
    dsimp only
    refine ⟨h1, h2, Finset.subset_union_left, ?_, ?_⟩
    · intro v hv
      exact absurd hv (List.not_mem_nil v)
    · intro w hw hwst x hx hxn
      exact absurd hw hwst
  | case2 v vs st hguard ih =>
    intro h1 h2
    obtain ⟨a1, a2, a3, a4, a5⟩ := ih h1 h2
    rw [dfsRun, dif_pos hguard]
    dsimp only
    refine ⟨a1, a2, a3, ?_, a5⟩
    intro w hw hwn
    rcases List.mem_cons.1 hw with rfl | hw
    · have hwst : w ∈ st.1 := by
        rcases hguard with hg | hg
        · omega
        · exact hg
      exact (dfsRun adj n vs st).2 hwst
    · exact a4 w hw hwn
  | case3 v vs st hguard r1 hr1 heq1 r2 hr2 heq2 ihf ihg =>
    intro h1 h2
    have hg := hguard
    push_neg at hg
    obtain ⟨hvn, hvst⟩ := hg
    have hvtour : v ∉ st.2 := by
      intro hc
      exact hvst (h1 ▸ List.mem_toFinset.2 hc)
    have h1s : (insert v st.1, st.2 ++ [v]).1 = (insert v st.1, st.2 ++ [v]).2.toFinset := by
      dsimp only
      rw [List.toFinset_append, ← h1]
      simp [Finset.insert_eq, Finset.union_comm]
    have h2s : (insert v st.1, st.2 ++ [v]).2.Nodup := by
      dsimp only
      rw [List.nodup_append]
      exact ⟨h2, List.nodup_singleton v, fun a ha hb => by
        rw [List.mem_singleton] at hb
        subst hb
        exact hvtour ha⟩
    obtain ⟨f1, f2, f3, f4, f5⟩ := ihf h1s h2s
    rw [heq1] at f1 f2 f3 f4 f5
    dsimp only at f1 f2 f3 f4 f5
    obtain ⟨g1, g2, g3, g4, g5⟩ := ihg f1 f2
    rw [heq2] at g1 g2 g3 g4 g5
    dsimp only at g1 g2 g3 g4 g5
    rw [dfsRun, dif_neg hguard, heq1]
    dsimp only
    rw [heq2]
    dsimp only
    refine ⟨g1, g2, ?_, ?_, ?_⟩
    · refine g3.trans ?_
      apply Finset.union_subset
      · refine f3.trans ?_
        apply Finset.union_subset
        · dsimp only
          intro x hx
          rcases Finset.mem_insert.1 hx with rfl | hx
          · exact Finset.mem_union_right _ (Finset.mem_range.2 hvn)
          · exact Finset.mem_union_left _ hx
        · exact Finset.subset_union_right
      · exact Finset.subset_union_right
    · intro w hw hwn
      rcases List.mem_cons.1 hw with rfl | hw
      · exact hr2 (hr1 (Finset.mem_insert_self w st.1))
      · exact g4 w hw hwn
    · intro w hw hwst x hx hxn
      by_cases hw1 : w ∈ r1.1
      · by_cases hwv : w = v
        · subst hwv
          exact hr2 (f4 x hx hxn)
        · have hwst2 : w ∉ (insert v st.1 : Finset ℕ) := by
            intro hc
            rcases Finset.mem_insert.1 hc with rfl | hc
            · exact hwv rfl
            · exact hwst hc
          exact hr2 (f5 w hw1 hwst2 x hx hxn)
      · exact g5 w hw hw1 x hx hxn

end Approx

namespace Approx

theorem buildAdjFold_mem (parent : List (Option ℕ)) :
    ∀ (l : List ℕ) (acc : ℕ → List ℕ) (u w : ℕ),
    w ∈ (l.foldl
      (fun adj i =>
        match parent.getD i none with
        | none => adj
        | some p => fun x =>
            if x = p then adj x ++ [i] else if x = i then adj x ++ [p] else adj x) acc) u ↔
    w ∈ acc u ∨ ∃ i ∈ l, ∃ p, parent.getD i none = some p ∧
      ((u = p ∧ w = i) ∨ (u = i ∧ w = p)) := by
  intro l
  induction l with
  | nil =>
    intro acc u w
    simp
  | cons i l ih =>
    intro acc u w
    rw [List.foldl_cons]
    cases hp : parent.getD i none with
    | none =>
      rw [ih]
      constructor
      · intro h
        rcases h with h | ⟨j, hj, p, hp2, hor⟩
        · exact Or.inl h
        · exact Or.inr ⟨j, List.mem_cons_of_mem _ hj, p, hp2, hor⟩
      · intro h
        rcases h with h | ⟨j, hj, p, hp2, hor⟩
        · exact Or.inl h
        · rcases List.mem_cons.1 hj with rfl | hj
          · rw [hp] at hp2
            exact absurd hp2 (by simp)
          · exact Or.inr ⟨j, hj, p, hp2, hor⟩
    | some p =>
      rw [ih]
      have hstep : ∀ x y, y ∈ (fun x =>
          if x = p then acc x ++ [i] else if x = i then acc x ++ [p] else acc x) x ↔
          y ∈ acc x ∨ (x = p ∧ y = i) ∨ (x = i ∧ y = p) := by
        intro x y
        dsimp only
        by_cases hxp : x = p
        · rw [if_pos hxp]
          simp only [List.mem_append, List.mem_singleton]
          constructor
          · rintro (h | h)
            · exact Or.inl h
            · exact Or.inr (Or.inl ⟨hxp, h⟩)
          · rintro (h | ⟨h1, h2⟩ | ⟨h1, h2⟩)
            · exact Or.inl h
            · exact Or.inr h2
            · right
              omega
        · rw [if_neg hxp]
          by_cases hxi : x = i
          · rw [if_pos hxi]
            simp only [List.mem_append, List.mem_singleton]
            constructor
            · rintro (h | h)
              · exact Or.inl h
              · exact Or.inr (Or.inr ⟨hxi, h⟩)
            · rintro (h | ⟨h1, h2⟩ | ⟨h1, h2⟩)
              · exact Or.inl h
              · exact absurd h1 hxp
              · exact Or.inr h2
          · rw [if_neg hxi]
            constructor
            · intro h
              exact Or.inl h
            · rintro (h | ⟨h1, h2⟩ | ⟨h1, h2⟩)
              · exact h
              · exact absurd h1 hxp
              · exact absurd h1 hxi
      rw [hstep]
      constructor
      · rintro ((h | h) | ⟨j, hj, q, hq, hor⟩)
        · exact Or.inl h
        · exact Or.inr ⟨i, List.mem_cons_self i l, p, hp, h⟩
        · exact Or.inr ⟨j, List.mem_cons_of_mem _ hj, q, hq, hor⟩
      · rintro (h | ⟨j, hj, q, hq, hor⟩)
        · exact Or.inl (Or.inl h)
        · rcases List.mem_cons.1 hj with rfl | hj
          · rw [hp] at hq
            injection hq with hq
            subst hq
            exact Or.inl (Or.inr hor)
          · exact Or.inr ⟨j, hj, q, hq, hor⟩

/-- Membership in the adjacency built from the parent array: exactly the tree
    edges of non-root vertices, in both directions. -/
theorem mem_buildAdj (parent : List (Option ℕ)) (n u w : ℕ) :
    w ∈ buildAdj parent n u ↔
    ∃ i, 1 ≤ i ∧ i < n ∧ ∃ p, parent.getD i none = some p ∧
      ((u = p ∧ w = i) ∨ (u = i ∧ w = p)) := by
  rw [buildAdj, buildAdjFold_mem]
  simp only [List.not_mem_nil, false_or, List.mem_range'_1]
  constructor
  · rintro ⟨i, ⟨hi1, hi2⟩, p, hp, hor⟩
    exact ⟨i, hi1, by omega, p, hp, hor⟩
  · rintro ⟨i, hi1, hi2, p, hp, hor⟩
    exact ⟨i, ⟨hi1, by omega⟩, p, hp, hor⟩

end Approx

namespace Approx

theorem map_getD_range {α : Type} (d : α) (l : List α) :
    (List.range l.length).map (fun i => l.getD i d) = l := by
  apply List.ext_getElem
  · simp
  · intro i h1 h2
    simp only [List.getElem_map, List.getElem_range]
    exact List.getD_eq_getElem l d h2

theorem toFinset_list_range (n : ℕ) : (List.range n).toFinset = Finset.range n := by
  ext x
  simp

theorem unmarkedCount_le (n : ℕ) (s : PrimState) : unmarkedCount n s ≤ n := by
  calc unmarkedCount n s ≤ (Finset.range n).card := Finset.card_filter_le _ _
  _ = n := Finset.card_range n

/-- After the Prim loop runs with fuel n from the initial state, the invariant
    holds and every vertex of the instance is reachable from the root along
    recorded tree edges. -/
theorem prim_reach (pos : ℕ → Point) (n : ℕ) :
    Inv n (primLoop pos n n (initState n)) ∧
    ∀ v < n, Relation.ReflTransGen (edgeR (primLoop pos n n (initState n))) 0 v := by
  obtain ⟨hInv, hall⟩ := primLoop_inv pos n n (initState n) (initState_inv n)
      (unmarkedCount_le n (initState n))
  exact ⟨hInv, fun v hv => hInv.2.2.2.1 v hv (hall v hv)⟩

/-- Any vertex reachable from the root through edges listed in the adjacency
    is visited by the DFS started at the root on an empty state. -/
theorem dfs_visits_reachable (adj : ℕ → List ℕ) (n : ℕ) (hn : 0 < n)
    (e : ℕ → ℕ → Prop)
    (hedge : ∀ a b, e a b → b < n ∧ b ∈ adj a) :
    ∀ v, Relation.ReflTransGen e 0 v →
      v ∈ (dfsRun adj n [0] (∅, [])).1.1 := by
  obtain ⟨h1, h2, h3, h4, h5⟩ := dfsRun_spec adj n [0] (∅, []) (by simp) (by simp)
  intro v hv
  induction hv with
  | refl => exact h4 0 (List.mem_singleton_self 0) hn
  | tail hab hbc ih =>
    obtain ⟨hcn, hcadj⟩ := hedge _ _ hbc
    exact h5 _ ih (Finset.not_mem_empty _) _ hcadj hcn

end Approx

namespace Approx

/-- The approximation solver returns a tour that is a permutation of the
    instance keys, and its reported cost is the recomputed tour distance of
    that tour, for every cutoff argument. -/
theorem approx_solve_spec (m : CoordMap) (cutoff_time : Option ℕ) :
    (solve_tsp m cutoff_time).1.Perm m.keys ∧
    (solve_tsp m cutoff_time).2 =
      calculate_tour_distance (solve_tsp m cutoff_time).1 m.pos := by
  have hperm : (sortedKeys m).Perm m.keys := List.perm_insertionSort _ _
  simp only [solve_tsp]
  by_cases hk : m.keys = []
  · rw [if_pos hk, hk]
    exact ⟨List.Perm.nil, rfl⟩
  · rw [if_neg hk]
    by_cases h1 : (sortedKeys m).length = 1
    · rw [if_pos h1]
      refine ⟨hperm, ?_⟩
      have hlt : (sortedKeys m).length < 2 := by omega
      rw [calculate_tour_distance, if_pos hlt]
    · rw [if_neg h1]
      have hn1 : (sortedKeys m).length ≠ 0 := by
        intro h0
        exact hk (by
          have := hperm.length_eq
          rw [h0] at this
          exact List.length_eq_zero.1 this.symm)
      have hn2 : 2 ≤ (sortedKeys m).length := by omega
      set vertices := sortedKeys m with hvert
      set n := vertices.length with hn
      set pos : ℕ → Point := fun i => m.pos (vertices.getD i 0) with hpos
      set s := primLoop pos n n (initState n) with hs
      set adj : ℕ → List ℕ :=
        fun u => (buildAdj s.parent n u).insertionSort (· ≤ ·) with hadjdef
      obtain ⟨hInv, hreach⟩ := prim_reach pos n
      have hplen : s.parent.length = n := hInv.1
      have hroot : s.parent.getD 0 none = none := hInv.2.2.2.2.2.2.1
      have hedge : ∀ a b, edgeR s a b → b < n ∧ b ∈ adj a := by
        intro a b hab
        obtain ⟨hpb, _, _⟩ := hab
        have hbn : b < n := by
          by_contra hc
          rw [List.getD_eq_default s.parent none (by omega)] at hpb
          exact absurd hpb (by simp)
        have hb0 : 1 ≤ b := by
          rcases Nat.eq_zero_or_pos b with rfl | hpos2
          · rw [hroot] at hpb
            exact absurd hpb (by simp)
          · omega
        refine ⟨hbn, ?_⟩
        have hmem : b ∈ buildAdj s.parent n a :=
          (mem_buildAdj s.parent n a b).2 ⟨b, hb0, hbn, a, hpb, Or.inl ⟨rfl, rfl⟩⟩
        exact (List.perm_insertionSort (· ≤ ·) (buildAdj s.parent n a)).mem_iff.2 hmem
      obtain ⟨hfin, hnd2, hsub, hpend, hclos⟩ :=
        dfsRun_spec adj n [0] (∅, []) (by simp) (by simp)
      set r := dfsRun adj n [0] (∅, []) with hrdef
      have hcov : ∀ v < n, v ∈ r.1.1 := fun v hv =>
        dfs_visits_reachable adj n (by omega) (edgeR s) hedge v (hreach v hv)
      have hvis : r.1.1 = Finset.range n := by
        apply Finset.Subset.antisymm
        · intro x hx
          have := hsub hx
          rwa [Finset.empty_union] at this
        · intro x hx
          exact hcov x (Finset.mem_range.1 hx)
      have hidx : r.1.2.Perm (List.range n) := by
        apply List.perm_of_nodup_nodup_toFinset_eq hnd2 (List.nodup_range n)
        rw [← hfin, hvis, toFinset_list_range]
      refine ⟨?_, rfl⟩
      have hmap : (r.1.2.map (fun i => vertices.getD i 0)).Perm vertices := by
        have := hidx.map (fun i => vertices.getD i 0)
        rw [hn] at this
        rw [map_getD_range 0 vertices] at this
        exact this
      exact hmap.trans hperm

end Approx

namespace BruteForce

/-- The brute force solver returns a tour that is a permutation of the keys
    together with its recomputed tour distance, for every clock oracle. -/
theorem brute_solve_spec (m : CoordMap) (timeOut : ℕ → Bool) :
    (solve_tsp m timeOut).1.Perm m.keys ∧
    (solve_tsp m timeOut).2 =
      calculate_tour_distance (solve_tsp m timeOut).1 m.pos := by
  have hperm : (sortedKeys m).Perm m.keys := List.perm_insertionSort _ _
  rw [solve_tsp]
  dsimp only
  by_cases h0 : (sortedKeys m).length = 0
  · rw [if_pos h0]
    have hve : sortedKeys m = [] := List.length_eq_zero.1 h0
    exact ⟨hve ▸ hperm, by simp [calculate_tour_distance]⟩
  · rw [if_neg h0]
    by_cases h1 : (sortedKeys m).length = 1
    · rw [if_pos h1]
      refine ⟨hperm, ?_⟩
      dsimp only
      rw [calculate_tour_distance, if_pos (by omega)]
    · rw [if_neg h1]
      have hne : sortedKeys m ≠ [] := fun hc => h0 (by rw [hc]; rfl)
      have hcons : (sortedKeys m).headD 0 :: (sortedKeys m).tail = sortedKeys m := by
        cases hv : sortedKeys m with
        | nil => exact absurd hv hne
        | cons a rest => rfl
      have hcand : ∀ p ∈ permsLex (sortedKeys m).tail,
          ((sortedKeys m).headD 0 :: p).Perm m.keys := by
        intro p hp
        have h2 := (mem_permsLex _ p).1 hp
        have h3 : ((sortedKeys m).headD 0 :: p).Perm
            ((sortedKeys m).headD 0 :: (sortedKeys m).tail) := h2.cons _
        rw [hcons] at h3
        exact h3.trans hperm
      rcases hl : loop m.pos timeOut ((sortedKeys m).headD 0)
          (permsLex (sortedKeys m).tail) 0 none with _ | ⟨t, d⟩
      · dsimp only
        constructor
        · rw [hcons]
          exact hperm
        · rfl
      · dsimp only
        exact loop_good m.pos timeOut _ (fun t => t.Perm m.keys)
          (permsLex (sortedKeys m).tail) 0 none hcand
          (by intro t2 d2 h2; simp at h2) t d hl

end BruteForce

namespace BruteForce

/-- With a clock that never fires, the cost returned by the brute force solver
    is at most the tour distance of every permutation of the keys: fixing the
    first vertex loses nothing because the cyclic tour cost is invariant under
    rotation. -/
theorem solve_min (m : CoordMap) (q : List ℕ) (hq : q.Perm m.keys) :
    (solve_tsp m (fun c => false)).2 ≤ calculate_tour_distance q m.pos := by
  have hperm : (sortedKeys m).Perm m.keys := List.perm_insertionSort _ _
  rw [solve_tsp]
  dsimp only
  by_cases h0 : (sortedKeys m).length = 0
  · rw [if_pos h0]
    exact Nat.zero_le _
  · rw [if_neg h0]
    by_cases h1 : (sortedKeys m).length = 1
    · rw [if_pos h1]
      exact Nat.zero_le _
    · rw [if_neg h1]
      have hn2 : 2 ≤ (sortedKeys m).length := by omega
      rcases hv : sortedKeys m with _ | ⟨a, rest⟩
      · rw [hv] at h0
        exact absurd rfl h0
      rw [hv] at hperm hn2
      dsimp only [List.headD, List.tail]
      have hqv : q.Perm (a :: rest) := hq.trans hperm.symm
      have hql : q.length = rest.length + 1 := by
        rw [hqv.length_eq]
        rfl
      have ha_mem : a ∈ q := hqv.mem_iff.2 (List.mem_cons_self a rest)
      obtain ⟨⟨i, hi⟩, hqi⟩ := List.mem_iff_get.1 ha_mem
      have hrot : (q.rotate i).Perm q := q.rotate_perm i
      rcases hq2 : q.rotate i with _ | ⟨b, tl⟩
      · have := List.length_rotate q i
        rw [hq2] at this
        simp at this
        omega
      have hb : b = a := by
        have hlen0 : 0 < (q.rotate i).length := by
          rw [List.length_rotate]
          omega
        have e1 : (q.rotate i).getD 0 0 = b := by
          rw [hq2]
          rfl
        rw [List.getD_eq_getElem _ 0 hlen0, List.getElem_rotate q i 0 hlen0] at e1
        simp only [Nat.zero_add, Nat.mod_eq_of_lt hi] at e1
        rw [← e1]
        exact hqi
      subst hb
      have htl : tl.Perm rest := by
        have h3 : (b :: tl).Perm (b :: rest) := (hq2 ▸ hrot).trans hqv
        exact h3.cons_inv
      have htl2 : tl ∈ permsLex rest := (mem_permsLex rest tl).2 htl
      have hcq : calculate_tour_distance (b :: tl) m.pos =
          calculate_tour_distance q m.pos := by
        rw [← hq2, calc_rotate]
      rw [← hcq]
      rcases hpl : permsLex rest with _ | ⟨p0, ps⟩
      · rw [hpl] at htl2
        exact absurd htl2 (List.not_mem_nil tl)
      obtain ⟨t, d, heq⟩ := loop_isSome m.pos b p0 ps 0
      rw [heq]
      dsimp only
      rw [hpl] at htl2
      exact loop_le_mem m.pos b (p0 :: ps) 0 none tl htl2 t d heq

end BruteForce

/-- The 4-point square instance named by the specification: keys 0..3 at
    (0,0), (0,10), (10,10), (10,0). -/
def sqMap : CoordMap :=
  ⟨[0, 1, 2, 3], fun i =>
    if i = 0 then ((0 : ℤ), (0 : ℤ))
    else if i = 1 then ((0 : ℤ), (10 : ℤ))
    else if i = 2 then ((10 : ℤ), (10 : ℤ))
    else ((10 : ℤ), (0 : ℤ))⟩

/-- When every edge between two distinct positions of the tour costs at least
    c, the cyclic tour distance is at least the length times c. -/
theorem calc_lower (tour : List ℕ) (coords : ℕ → Point) (c : ℕ)
    (h2 : 2 ≤ tour.length)
    (h : ∀ i < tour.length, ∀ j < tour.length, i ≠ j →
      c ≤ euclidean_distance (coords (tour.getD i 0)) (coords (tour.getD j 0))) :
    tour.length * c ≤ calculate_tour_distance tour coords := by
  rw [calculate_tour_distance, if_neg (by omega)]
  rw [foldl_add_map
    (fun i => euclidean_distance (coords (tour.getD i 0)) (coords (tour.getD (i + 1) 0)))
    (List.range (tour.length - 1)) 0, zero_add]
  have hsum : (tour.length - 1) * c ≤
      ((List.range (tour.length - 1)).map
        (fun i => euclidean_distance (coords (tour.getD i 0))
          (coords (tour.getD (i + 1) 0)))).sum := by
    have hb : ∀ x ∈ (List.range (tour.length - 1)).map
        (fun i => euclidean_distance (coords (tour.getD i 0))
          (coords (tour.getD (i + 1) 0))), c ≤ x := by
      intro x hx
      rw [List.mem_map] at hx
      obtain ⟨i, hi, rfl⟩ := hx
      rw [List.mem_range] at hi
      exact h i (by omega) (i + 1) (by omega) (by omega)
    have h4 := List.card_nsmul_le_sum _ c hb
    rw [List.length_map, List.length_range] at h4
    simpa using h4
  have hclose : c ≤ euclidean_distance (coords (tour.getD (tour.length - 1) 0))
      (coords (tour.getD 0 0)) := h (tour.length - 1) (by omega) 0 (by omega) (by omega)
  have hmul : tour.length * c = (tour.length - 1) * c + c := by
    obtain ⟨k, hk⟩ : ∃ k, tour.length = k + 2 := ⟨tour.length - 2, by omega⟩
    have hk1 : k + 2 - 1 = k + 1 := by omega
    rw [hk, hk1]
    ring
  rw [hmul]
  exact Nat.add_le_add hsum hclose

/-- On the square instance all pairwise distances between distinct vertices
    are at least 10 (the side length). -/
theorem sq_low : ∀ a ∈ sqMap.keys, ∀ b ∈ sqMap.keys, a ≠ b →
    10 ≤ euclidean_distance (sqMap.pos a) (sqMap.pos b) := by decide

/-- The perimeter tour of the square instance costs 40. -/
theorem sq_perimeter : calculate_tour_distance [0, 1, 2, 3] sqMap.pos = 40 := by decide

/-- The brute force solver with a clock that never fires returns cost 40 on
    the square instance: 40 is both attained by the perimeter tour and a lower
    bound because each of the four tour edges costs at least 10. -/
theorem sq_result_40 : (BruteForce.solve_tsp sqMap (fun c => false)).2 = 40 := by
  obtain ⟨hp, hc⟩ := BruteForce.brute_solve_spec sqMap (fun c => false)
  have hub := BruteForce.solve_min sqMap [0, 1, 2, 3] (List.Perm.refl _)
  rw [sq_perimeter] at hub
  set t := (BruteForce.solve_tsp sqMap (fun c => false)).1 with ht
  rw [hc] at hub ⊢
  have hlen : t.length = 4 := by
    rw [hp.length_eq]
    rfl
  have hnd : t.Nodup := hp.nodup_iff.2 (by decide)
  have hidx : ∀ i < t.length, ∀ j < t.length, i ≠ j →
      10 ≤ euclidean_distance (sqMap.pos (t.getD i 0)) (sqMap.pos (t.getD j 0)) := by
    intro i hi j hj hne
    apply sq_low
    · have hm : t.getD i 0 ∈ t := by
        rw [List.getD_eq_getElem t 0 hi]
        exact List.getElem_mem hi
      exact hp.mem_iff.1 hm
    · have hm : t.getD j 0 ∈ t := by
        rw [List.getD_eq_getElem t 0 hj]
        exact List.getElem_mem hj
      exact hp.mem_iff.1 hm
    · rw [List.getD_eq_getElem t 0 hi, List.getD_eq_getElem t 0 hj]
      intro hcc
      have h3 := List.nodup_iff_injective_get.1 hnd
      have h4 : (⟨i, hi⟩ : Fin t.length) = ⟨j, hj⟩ := h3 (by
        rw [List.get_eq_getElem, List.get_eq_getElem]
        exact hcc)
      exact hne (congrArg Fin.val h4)
  have hlb := calc_lower t sqMap.pos 10 (by omega) hidx
  rw [hlen] at hlb
  omega

namespace BruteForce

/-- When the clock already fires at the first sample, the enumeration loop
    returns its initial (empty) best before evaluating anything. -/
theorem loop_first_fire (coords : ℕ → Point) (timeOut : ℕ → Bool) (start : ℕ)
    (hfire : timeOut 1 = true) (L : List (List ℕ)) :
    loop coords timeOut start L 0 none = none := by
  cases L with
  | nil => rfl
  | cons p rest =>
    rw [loop]
    dsimp only
    rw [if_pos ⟨Or.inl rfl, hfire⟩]

end BruteForce

/-- C1: for every coordinate map (with the distinct keys of a dictionary), the
    tour returned by each of the three solvers — brute force, approximation and
    genetic — is a permutation of exactly the map's keys. -/
theorem C1_solvers_permutation (m : CoordMap) (hnd : m.keys.Nodup)
    (timeOutB timeOutG : ℕ → Bool) (cutoff : Option ℕ) (entropy : ℕ → ℕ → ℕ)
    (seed : ℕ) (g0 : RNG) :
    (BruteForce.solve_tsp m timeOutB).1.Perm m.keys ∧
    (Approx.solve_tsp m cutoff).1.Perm m.keys ∧
    (Genetic.solve_tsp entropy m timeOutG seed g0).1.Perm m.keys :=
  ⟨(BruteForce.brute_solve_spec m timeOutB).1,
   (Approx.approx_solve_spec m cutoff).1,
   (Genetic.genetic_solve_spec entropy m timeOutG seed g0 hnd).1⟩

theorem C1_witness :
    sqMap.keys.Nodup ∧
    ((BruteForce.solve_tsp sqMap (fun c => false)).1.Perm sqMap.keys ∧
     (Approx.solve_tsp sqMap none).1.Perm sqMap.keys ∧
     (Genetic.solve_tsp (fun s i => 0) sqMap (fun g => true) 0 ⟨fun i => 0, 0⟩).1.Perm
       sqMap.keys) :=
  ⟨by decide, C1_solvers_permutation sqMap (by decide) (fun c => false) (fun g => true)
    none (fun s i => 0) 0 ⟨fun i => 0, 0⟩⟩

/-- C2: for every coordinate map with distinct keys, the cost value returned by
    each of the three solvers equals calculate_tour_distance recomputed on the
    returned tour and the same map. -/
theorem C2_cost_consistent (m : CoordMap) (hnd : m.keys.Nodup)
    (timeOutB timeOutG : ℕ → Bool) (cutoff : Option ℕ) (entropy : ℕ → ℕ → ℕ)
    (seed : ℕ) (g0 : RNG) :
    (BruteForce.solve_tsp m timeOutB).2 =
      calculate_tour_distance (BruteForce.solve_tsp m timeOutB).1 m.pos ∧
    (Approx.solve_tsp m cutoff).2 =
      calculate_tour_distance (Approx.solve_tsp m cutoff).1 m.pos ∧
    (Genetic.solve_tsp entropy m timeOutG seed g0).2 =
      calculate_tour_distance (Genetic.solve_tsp entropy m timeOutG seed g0).1 m.pos :=
  ⟨(BruteForce.brute_solve_spec m timeOutB).2,
   (Approx.approx_solve_spec m cutoff).2,
   (Genetic.genetic_solve_spec entropy m timeOutG seed g0 hnd).2⟩

theorem C2_witness :
    sqMap.keys.Nodup ∧
    ((BruteForce.solve_tsp sqMap (fun c => false)).2 =
      calculate_tour_distance (BruteForce.solve_tsp sqMap (fun c => false)).1 sqMap.pos ∧
     (Approx.solve_tsp sqMap none).2 =
      calculate_tour_distance (Approx.solve_tsp sqMap none).1 sqMap.pos ∧
     (Genetic.solve_tsp (fun s i => 0) sqMap (fun g => true) 0 ⟨fun i => 0, 0⟩).2 =
      calculate_tour_distance
        (Genetic.solve_tsp (fun s i => 0) sqMap (fun g => true) 0 ⟨fun i => 0, 0⟩).1
        sqMap.pos) :=
  ⟨by decide, C2_cost_consistent sqMap (by decide) (fun c => false) (fun g => true)
    none (fun s i => 0) 0 ⟨fun i => 0, 0⟩⟩

/-- C3: with an unrestricted cutoff (a clock that never fires) the exhaustive
    solver returns the minimum of calculate_tour_distance over all permutations
    of the vertex set — its cost is at most every permutation's cost and is
    attained by the returned permutation — and on the 4-point square instance
    (0,0),(0,10),(10,10),(10,0) the returned cost is 40. -/
theorem C3_exhaustive_min (m : CoordMap) :
    (∀ q, q.Perm m.keys →
      (BruteForce.solve_tsp m (fun c => false)).2 ≤ calculate_tour_distance q m.pos) ∧
    (∃ q, q.Perm m.keys ∧
      (BruteForce.solve_tsp m (fun c => false)).2 = calculate_tour_distance q m.pos) ∧
    (BruteForce.solve_tsp sqMap (fun c => false)).2 = 40 := by
  refine ⟨fun q hq => BruteForce.solve_min m q hq, ?_, sq_result_40⟩
  obtain ⟨hp, hc⟩ := BruteForce.brute_solve_spec m (fun c => false)
  exact ⟨_, hp, hc⟩

/-- C4: the genetic solver is deterministic in the seed: the ambient state of
    the process generator is replaced by seeding at the start of the solve and
    no other entropy source is consulted, so two runs with the same entropy
    stream family, map, clock and seed agree exactly. -/
theorem C4_determinism (entropy : ℕ → ℕ → ℕ) (m : CoordMap) (timeOut : ℕ → Bool)
    (seed : ℕ) (g0 g1 : RNG) :
    Genetic.solve_tsp entropy m timeOut seed g0 =
      Genetic.solve_tsp entropy m timeOut seed g1 := rfl

/-- C5: for parents that are permutations of a duplicate-free vertex set of
    size at least 2, and any segment start in [0, n-1] and segment length in
    [1, n/2], the crossover result is a permutation of that vertex set. -/
theorem C5_crossover_permutation (base p1 p2 : List ℕ) (hb : base.Nodup)
    (h1 : p1.Perm base) (h2 : p2.Perm base) (hn : 2 ≤ base.length)
    (start len : ℕ) (hstart : start ≤ base.length - 1) (hlen1 : 1 ≤ len)
    (hlen2 : len ≤ base.length / 2) :
    (Genetic.crossoverAt p1 p2 start len).Perm base :=
  Genetic.crossoverAt_perm base p1 p2 hb h1 h2 start len
    (by rw [h1.length_eq]; omega)

theorem C5_witness :
    ([0, 1] : List ℕ).Nodup ∧ ([1, 0] : List ℕ).Perm [0, 1] ∧
    ([0, 1] : List ℕ).Perm [0, 1] ∧ 2 ≤ ([0, 1] : List ℕ).length ∧
    (1 : ℕ) ≤ ([0, 1] : List ℕ).length - 1 ∧ (1 : ℕ) ≤ 1 ∧
    (1 : ℕ) ≤ ([0, 1] : List ℕ).length / 2 ∧
    (Genetic.crossoverAt [1, 0] [0, 1] 1 1).Perm [0, 1] :=
  ⟨by decide, by decide, by decide, by decide, by decide, by decide, by decide,
   C5_crossover_permutation [0, 1] [1, 0] [0, 1] (by decide) (by decide) (by decide)
     (by decide) 1 1 (by decide) (by decide) (by decide)⟩

/-- C7: the distance function is the Euclidean distance rounded to the nearest
    integer, and the edge weight of the spanning tree construction is that very
    same function applied to the endpoint coordinates. -/
theorem C7_rounded_distance (c1 c2 : Point) (pos : ℕ → Point) (u v : ℕ) :
    ((euclidean_distance c1 c2 : ℕ) : ℤ) =
      round (Real.sqrt (((c2.1 - c1.1) ^ 2 + (c2.2 - c1.2) ^ 2 : ℤ) : ℝ)) ∧
    Approx.primWeight pos u v = euclidean_distance (pos u) (pos v) :=
  ⟨euclid_eq_round_sqrt c1 c2, rfl⟩

/-- C8: when the cutoff fires at the very first sample, before any tour has
    been evaluated, the exhaustive solver on an instance of at least two
    vertices returns the sorted canonical tour with its true recomputed cost:
    it never returns an empty result when interrupted. -/
theorem C8_cutoff_fallback (m : CoordMap) (timeOut : ℕ → Bool)
    (h2 : 2 ≤ m.keys.length) (hfire : timeOut 1 = true) :
    BruteForce.solve_tsp m timeOut =
      (sortedKeys m, calculate_tour_distance (sortedKeys m) m.pos) := by
  have hperm : (sortedKeys m).Perm m.keys := List.perm_insertionSort _ _
  have hlen : (sortedKeys m).length = m.keys.length := hperm.length_eq
  rw [BruteForce.solve_tsp]
  dsimp only
  rw [if_neg (by omega), if_neg (by omega)]
  rcases hv : sortedKeys m with _ | ⟨a, rest⟩
  · rw [hv] at hlen
    simp at hlen
    omega
  dsimp only [List.headD, List.tail]
  rw [BruteForce.loop_first_fire m.pos timeOut a hfire]

theorem C8_witness :
    2 ≤ sqMap.keys.length ∧ (fun c => true) 1 = true ∧
    BruteForce.solve_tsp sqMap (fun c => true) =
      (sortedKeys sqMap, calculate_tour_distance (sortedKeys sqMap) sqMap.pos) :=
  ⟨by decide, rfl, C8_cutoff_fallback sqMap (fun c => true) (by decide) rfl⟩

/-- C10: the rational mirror of the floating point accumulation in
    calculate_tour_distance is exactly the natural number tour distance cast to
    the rationals: the reported cost is a non-negative whole number. -/
theorem C10_integer_cost (tour : List ℕ) (m : CoordMap) :
    calculate_tour_distance_q tour m.pos =
      ((calculate_tour_distance tour m.pos : ℕ) : ℚ) ∧
    0 ≤ calculate_tour_distance_q tour m.pos :=
  ⟨calc_q_eq tour m.pos, by rw [calc_q_eq]; exact Nat.cast_nonneg _⟩
